import Mathlib

/-!
The analyzer `defermistake`.

A shallow embedding of `go/analysis/passes/defermistake/defermistake.go`:
the analyzer that reports calls of `time.Since` evaluated when a `defer`
statement is executed rather than when the deferred call runs.

The syntax tree is a labelled rose tree: every node records its dynamic
type (one of the node types of `go/ast`), its `Pos()`, the object that
`typeutil.Callee(pass.TypesInfo, v)` yields for it, and its non-nil
children in the order `ast.Walk` visits them.  A panic (nil pointer
dereference) is the result `none`.
-/

namespace defermistake

/-- Source position, as `token.Pos`. -/
abbrev Pos := Nat

/-- The dynamic types of `ast.Node` values in `go/ast`. -/
inductive NodeKind where
  | BadExpr | Ident | Ellipsis | BasicLit | FuncLit | CompositeLit | ParenExpr
  | SelectorExpr | IndexExpr | IndexListExpr | SliceExpr | TypeAssertExpr
  | CallExpr | StarExpr | UnaryExpr | BinaryExpr | KeyValueExpr
  | ArrayType | StructType | FuncType | InterfaceType | MapType | ChanType
  | BadStmt | DeclStmt | EmptyStmt | LabeledStmt | ExprStmt | SendStmt
  | IncDecStmt | AssignStmt | GoStmt | DeferStmt | ReturnStmt | BranchStmt
  | BlockStmt | IfStmt | CaseClause | SwitchStmt | TypeSwitchStmt | CommClause
  | SelectStmt | ForStmt | RangeStmt
  | ImportSpec | ValueSpec | TypeSpec | BadDecl | GenDecl | FuncDecl
  | File | Package | Comment | CommentGroup | Field | FieldList
  deriving DecidableEq, Repr

/-- The node types that implement `ast.Expr`. -/
def NodeKind.isExpr : NodeKind → Bool
  | .BadExpr | .Ident | .Ellipsis | .BasicLit | .FuncLit | .CompositeLit
  | .ParenExpr | .SelectorExpr | .IndexExpr | .IndexListExpr | .SliceExpr
  | .TypeAssertExpr | .CallExpr | .StarExpr | .UnaryExpr | .BinaryExpr
  | .KeyValueExpr | .ArrayType | .StructType | .FuncType | .InterfaceType
  | .MapType | .ChanType => true
  | _ => false

/-- A `types.Package`, of which the analyzer reads the path only. -/
structure Package where
  Path : String
  deriving DecidableEq, Repr

/-- A `types.Func`: its name, and its package, which is nil (`none`) for an
object of the universe scope. -/
structure Func where
  Name : String
  Pkg : Option Package
  deriving DecidableEq, Repr

/-- The non-nil results of `typeutil.Callee`: a function or method, a
variable of function type, or a builtin. -/
inductive Object where
  | Func (fn : defermistake.Func)
  | Var (name : String)
  | Builtin (name : String)
  deriving DecidableEq, Repr

/-- A syntax-tree node: dynamic type, `Pos()`, the result of
`typeutil.Callee(pass.TypesInfo, v)` for this node (`none` is nil), and the
non-nil children in `ast.Walk` order. -/
inductive Node where
  | mk (kind : NodeKind) (pos : Pos) (callee : Option Object) (children : List Node)
  deriving Repr

/-- Dynamic type of a node. -/
def Node.kind : Node → NodeKind
  | .mk k _ _ _ => k

/-- Result of `Pos()` on a node. -/
def Node.pos : Node → Pos
  | .mk _ p _ _ => p

/-- Result of `typeutil.Callee(pass.TypesInfo, v)` on a node. -/
def Node.callee : Node → Option Object
  | .mk _ _ c _ => c

/-- Children of a node, in `ast.Walk` order. -/
def Node.children : Node → List Node
  | .mk _ _ _ ch => ch

/-- The `Call` field of a `*ast.DeferStmt`, the only child `ast.Walk` visits;
`none` is a nil `Call`. -/
def Node.Call (d : Node) : Option Node :=
  d.children.head?

/-- An `analysis.Diagnostic`, as `pass.Reportf` builds it. -/
structure Diagnostic where
  Pos : defermistake.Pos
  Message : String
  deriving DecidableEq, Repr

/-- The format string handed to `pass.Reportf`; it has no verbs. -/
def reportMessage : String := "defer func should not evaluate time.Since"

/-- Source: `isTimeSince`.  `f.Pkg().Path()` is evaluated only when the name
is "Since" (`&&` short-circuits); on a nil package it dereferences a nil
pointer, which is `none`. -/
def isTimeSince (f : Func) : Option Bool :=
  if f.Name = "Since" then
    match f.Pkg with
    | none => none
    | some pkg => if pkg.Path = "time" then some true else some false
  else some false

/-- Source: the closure `checkDeferCall` of `run`.  The result holds the
diagnostics reported at this node and the boolean the closure returns. -/
def checkDeferCall (node : Node) : Option (List Diagnostic × Bool) :=
  if node.kind = .CallExpr then
    match node.callee with
    | some (.Func fn) =>
      match isTimeSince fn with
      | none => none
      | some true => some ([⟨node.pos, reportMessage⟩], true)
      | some false => some ([], true)
    | _ => some ([], true)
  else if node.kind.isExpr then some ([], true)
  else some ([], false)

mutual
/-- The traversal `ast.Inspect(node, f)`: `f` is called on the node and, when
it returns true, on the children in order (depth first); what the calls of
`f` leave behind (diagnostics, for `checkDeferCall`) is collected in order.
The closing call `f(nil)` matches no case of `checkDeferCall` and reports
nothing. -/
def Inspect {α : Type} (f : Node → Option (List α × Bool)) : Node → Option (List α)
  | .mk k p c ch =>
    match f (.mk k p c ch) with
    | none => none
    | some (ds, true) =>
      match InspectList f ch with
      | none => none
      | some ds2 => some (ds ++ ds2)
    | some (ds, false) => some ds
/-- The traversal of a list of children, left to right. -/
def InspectList {α : Type} (f : Node → Option (List α × Bool)) : List Node → Option (List α)
  | [] => some []
  | n :: ns =>
    match Inspect f n with
    | none => none
    | some a =>
      match InspectList f ns with
      | none => none
      | some b => some (a ++ b)
end

mutual
/-- The nodes of a tree whose type is in `types`, in pre-order. -/
def preorder (types : List NodeKind) : Node → List Node
  | .mk k p c ch =>
    if k ∈ types then .mk k p c ch :: preorderList types ch else preorderList types ch
/-- The nodes of a forest whose type is in `types`, in pre-order. -/
def preorderList (types : List NodeKind) : List Node → List Node
  | [] => []
  | n :: ns => preorder types n ++ preorderList types ns
end

/-- Calls `f` on each node in turn and concatenates what it reports; a panic
ends the run. -/
def forEach (f : Node → Option (List Diagnostic)) : List Node → Option (List Diagnostic)
  | [] => some []
  | n :: ns =>
    match f n with
    | none => none
    | some a =>
      match forEach f ns with
      | none => none
      | some b => some (a ++ b)

/-- Modelled from the spec: `inspector.Preorder` (package
`go/ast/inspector`, not among the sources) is the Deferral Locator of
section 4.1: it visits every node of every file in pre-order and calls `f`
on those whose type is in `types`. -/
def Preorder (files : List Node) (types : List NodeKind)
    (f : Node → Option (List Diagnostic)) : Option (List Diagnostic) :=
  forEach f (preorderList types files)

/-- The `analysis.Pass` as `run` reads it: the files the inspector was built
from (the type information is recorded in the nodes). -/
structure Pass where
  Files : List Node

/-- What a run leaves behind: the diagnostics handed to `pass.Report`, and
the two results of `run` (`none` is nil). -/
structure Outcome where
  diagnostics : List Diagnostic
  result : Option Unit
  err : Option String
  deriving DecidableEq, Repr

/-- Source: the function literal handed to `inspect.Preorder` in `run`:
`d := n.(*ast.DeferStmt); ast.Inspect(d.Call, checkDeferCall)`.  With a nil
`Call` the closure receives a nil `*ast.CallExpr`, which `typeutil.Callee`
dereferences. -/
def visitDefer (n : Node) : Option (List Diagnostic) :=
  match n.Call with
  | none => none
  | some call => Inspect checkDeferCall call

/-- Source: `run`. -/
def run (pass : Pass) : Option Outcome :=
  match Preorder pass.Files [.DeferStmt] visitDefer with
  | none => none
  | some ds => some ⟨ds, none, none⟩

/-! ## Vocabulary of the specification -/

/-- The diagnostic reported for a call node. -/
def diagOf (n : Node) : Diagnostic := ⟨n.pos, reportMessage⟩

/-- The callee is a function that `isTimeSince` accepts. -/
def calleeIsTimeSince : Option Object → Bool
  | some (.Func fn) => isTimeSince fn == some true
  | _ => false

/-- The callee is a function named "Since" that has no package, the one
case in which `isTimeSince` dereferences a nil pointer. -/
def calleeNilPkg : Option Object → Bool
  | some (.Func fn) => isTimeSince fn == none
  | _ => false

/-- A flagged call: a call expression whose callee resolves to `time.Since`. -/
def Node.flagged (n : Node) : Bool :=
  n.kind == .CallExpr && calleeIsTimeSince n.callee

/-- A call expression on which `checkDeferCall` panics. -/
def Node.nilPkg (n : Node) : Bool :=
  n.kind == .CallExpr && calleeNilPkg n.callee

mutual
/-- All nodes of a tree, in pre-order. -/
def nodes : Node → List Node
  | .mk k p c ch => .mk k p c ch :: nodesList ch
/-- All nodes of a forest, in pre-order. -/
def nodesList : List Node → List Node
  | [] => []
  | n :: ns => nodes n ++ nodesList ns
end

mutual
/-- The nodes reachable from a root through expression nodes only, in
pre-order: the root, and the children of every reachable expression. -/
def exprReachable : Node → List Node
  | .mk k p c ch => .mk k p c ch :: (if k.isExpr then exprReachableList ch else [])
/-- The nodes reachable from the roots of a forest through expression nodes. -/
def exprReachableList : List Node → List Node
  | [] => []
  | n :: ns => exprReachable n ++ exprReachableList ns
end

/-- An edge from an expression node to one of its children. -/
def ExprEdge (a b : Node) : Prop := a.kind.isExpr = true ∧ b ∈ a.children

/-- Reachability along edges that leave expression nodes. -/
def Reach : Node → Node → Prop := Relation.ReflTransGen ExprEdge

mutual
/-- The nodes reachable from a root by argument edges only: from a call
expression to its arguments, the children after `Fun`. -/
def argReachable : Node → List Node
  | .mk k p c [] => [.mk k p c []]
  | .mk k p c (fn :: args) =>
    .mk k p c (fn :: args) :: (if k = .CallExpr then argReachableList args else [])
/-- The nodes reachable from the roots of a forest by argument edges only. -/
def argReachableList : List Node → List Node
  | [] => []
  | n :: ns => argReachable n ++ argReachableList ns
end

mutual
/-- The nodes of a tree that lie outside every function-literal body: the
block statement under a `FuncLit` is left out with all it contains. -/
def outsideBodies (inLit : Bool) : Node → List Node
  | .mk k p c ch =>
    if inLit && k == .BlockStmt then []
    else .mk k p c ch :: outsideBodiesList (k == .FuncLit) ch
/-- The nodes of a forest that lie outside every function-literal body. -/
def outsideBodiesList (inLit : Bool) : List Node → List Node
  | [] => []
  | n :: ns => outsideBodies inLit n ++ outsideBodiesList inLit ns
end

mutual
/-- The tree with the statements of every function-literal body removed. -/
def eraseBodies (inLit : Bool) : Node → Node
  | .mk k p c ch =>
    if inLit && k == .BlockStmt then .mk k p c []
    else .mk k p c (eraseBodiesList (k == .FuncLit) ch)
/-- The forest with the statements of every function-literal body removed. -/
def eraseBodiesList (inLit : Bool) : List Node → List Node
  | [] => []
  | n :: ns => eraseBodies inLit n :: eraseBodiesList inLit ns
end

/-- No call in the whole tree resolves to `time.Since`, and none to a
function named "Since" without a package. -/
def noSince (n : Node) : Bool :=
  (nodes n).all (fun m => !m.flagged && !m.nilPkg)

/-- No call that the walk from `n` reaches has a callee named "Since" that
lacks a package: the walk does not panic. -/
def pkgsPresent (n : Node) : Bool :=
  (exprReachable n).all (fun m => !m.nilPkg)

/-- The defer statement has a call, and the walk of that call meets no
function named "Since" without a package. -/
def deferOk (d : Node) : Bool :=
  match d.Call with
  | none => false
  | some call => pkgsPresent call

/-- Every defer statement of the files has a call, and the walk of that call
meets no function named "Since" without a package. -/
def Pass.wellFormed (pass : Pass) : Bool :=
  (preorderList [.DeferStmt] pass.Files).all deferOk

/-- The diagnostics of the flagged calls of a list of nodes, in order. -/
def diagsOf (l : List Node) : List Diagnostic :=
  (l.filter Node.flagged).map diagOf

/-- The outcome of handing the nodes of a list to `checkDeferCall` in turn:
a panic at the first function named "Since" without a package, else the
diagnostics of the flagged calls. -/
def walkOf (l : List Node) : Option (List Diagnostic) :=
  if l.any Node.nilPkg then none else some (diagsOf l)

/-- The flagged calls reachable through expression nodes from the call of a
defer statement. -/
def flaggedReached (d : Node) : List Node :=
  match d.Call with
  | none => []
  | some call => (exprReachable call).filter Node.flagged

/-- The flagged calls reachable through expression nodes from the call of
some defer statement of the files, defer statements taken in pre-order. -/
def reportedCalls (pass : Pass) : List Node :=
  (preorderList [.DeferStmt] pass.Files).flatMap flaggedReached

/-- The flagged calls reachable by argument edges only from the call of some
defer statement of the files. -/
def argReachedFlagged (pass : Pass) : List Node :=
  (preorderList [.DeferStmt] pass.Files).flatMap (fun d =>
    match d.Call with
    | none => []
    | some call => (argReachable call).filter Node.flagged)

/-- The diagnostics a run reported, when it did not panic. -/
def reported (pass : Pass) : Option (List Diagnostic) :=
  (run pass).map Outcome.diagnostics

/-- The closure `checkDeferCall` with its reports replaced by a record of the
node it is called on: the same panics and the same returned boolean. -/
def recordVisit (node : Node) : Option (List Node × Bool) :=
  match checkDeferCall node with
  | none => none
  | some r => some ([node], r.2)

/-- The nodes the walk of the call of a defer statement hands to
`checkDeferCall`. -/
def walked (d : Node) : List Node :=
  match d.Call with
  | none => []
  | some call => exprReachable call

/-- The nodes walked for the defer statements of the files, defer statements
taken in pre-order. -/
def walkedNodes (pass : Pass) : List Node :=
  (preorderList [.DeferStmt] pass.Files).flatMap walked

/-- What the parser and the type checker guarantee: every defer statement of
the files has a call, and no call of the files resolves to a function named
"Since" that has no package. -/
def Pass.wellTyped (pass : Pass) : Bool :=
  (nodesList pass.Files).all (fun n =>
    !n.nilPkg && (n.kind != .DeferStmt || n.Call.isSome))

/-- No defer statement of the files lies below another defer statement. -/
def noDeferInDefer (files : List Node) : Bool :=
  (nodesList files).all (fun d =>
    d.kind != .DeferStmt || (preorderList [.DeferStmt] d.children).isEmpty)

/-- The call expressions of the files are met in source order along the
pre-order listing of the nodes: the position of a call is not smaller than
that of any call listed before it.  A parsed file has this property, a call
starting where its `Fun` starts and `ast.Walk` visiting the expressions of
every node in source order; it says nothing about the other nodes. -/
def callsOrdered (files : List Node) : Bool :=
  decide ((((nodesList files).filter (fun n => n.kind == .CallExpr)).map Node.pos).Pairwise
    (fun a b => a ≤ b))

/-! ## Constructors of `go/ast` nodes, children in `ast.Walk` order -/

/-- An `*ast.Ident`. -/
def ident (namePos : Pos) : Node := .mk .Ident namePos none []

/-- An `*ast.BasicLit`. -/
def basicLit (valuePos : Pos) : Node := .mk .BasicLit valuePos none []

/-- An `*ast.SelectorExpr` `X.Sel`; its position is that of `X`. -/
def selectorExpr (x sel : Node) : Node := .mk .SelectorExpr x.pos none [x, sel]

/-- An `*ast.CallExpr` `Fun(Args...)` with the object `typeutil.Callee`
resolves it to; its position is that of `Fun`. -/
def callExpr (callee : Option Object) (fn : Node) (args : List Node) : Node :=
  .mk .CallExpr fn.pos callee (fn :: args)

/-- An `*ast.ParenExpr`. -/
def parenExpr (lparen : Pos) (x : Node) : Node := .mk .ParenExpr lparen none [x]

/-- An `*ast.UnaryExpr`. -/
def unaryExpr (opPos : Pos) (x : Node) : Node := .mk .UnaryExpr opPos none [x]

/-- An `*ast.CompositeLit` `Type{Elts...}`. -/
def compositeLit (type : Node) (elts : List Node) : Node :=
  .mk .CompositeLit type.pos none (type :: elts)

/-- An `*ast.FieldList`. -/
def fieldList (opening : Pos) (fields : List Node) : Node :=
  .mk .FieldList opening none fields

/-- An `*ast.Field` with its names and its type. -/
def field (names : List Node) (type : Node) : Node :=
  .mk .Field ((names.head?.getD type).pos) none (names ++ [type])

/-- An `*ast.FuncType` with its parameter list and its result list, if any. -/
def funcType (funcPos : Pos) (params : Node) (results : List Node) : Node :=
  .mk .FuncType funcPos none (params :: results)

/-- An `*ast.StructType`. -/
def structType (structPos : Pos) (fields : Node) : Node :=
  .mk .StructType structPos none [fields]

/-- An `*ast.ArrayType` `[Len]Elt`. -/
def arrayType (lbrack : Pos) (len elt : Node) : Node :=
  .mk .ArrayType lbrack none [len, elt]

/-- An `*ast.BlockStmt`. -/
def blockStmt (lbrace : Pos) (list : List Node) : Node := .mk .BlockStmt lbrace none list

/-- An `*ast.FuncLit`; its position is that of its type. -/
def funcLit (type body : Node) : Node := .mk .FuncLit type.pos none [type, body]

/-- An `*ast.ExprStmt`. -/
def exprStmt (x : Node) : Node := .mk .ExprStmt x.pos none [x]

/-- An `*ast.ReturnStmt`. -/
def returnStmt (returnPos : Pos) (results : List Node) : Node :=
  .mk .ReturnStmt returnPos none results

/-- An `*ast.DeferStmt` with a call. -/
def deferStmt (deferPos : Pos) (call : Node) : Node := .mk .DeferStmt deferPos none [call]

/-- An `*ast.AssignStmt` with one expression on each side; its position is
that of the left-hand side. -/
def assignStmt (lhs rhs : Node) : Node := .mk .AssignStmt lhs.pos none [lhs, rhs]

/-- An `*ast.ImportSpec` without a name; its position is that of the path. -/
def importSpec (path : Node) : Node := .mk .ImportSpec path.pos none [path]

/-- An `*ast.GenDecl`. -/
def genDecl (tokPos : Pos) (specs : List Node) : Node := .mk .GenDecl tokPos none specs

/-- An `*ast.FuncDecl` without a receiver: `ast.Walk` visits the name, then
the type, then the body; its position is that of the type, the keyword
`func`, which precedes the name. -/
def funcDecl (name type body : Node) : Node := .mk .FuncDecl type.pos none [name, type, body]

/-- An `*ast.File`: `ast.Walk` visits the package name, then the
declarations; its position is that of the keyword `package`. -/
def file (packagePos : Pos) (name : Node) (decls : List Node) : Node :=
  .mk .File packagePos none (name :: decls)

/-- An `*ast.File` holding one function declaration with the given body
statements; the nodes above the statements carry `token.NoPos`. -/
def fileOf (stmts : List Node) : Node :=
  .mk .File 0 none
    [ident 0,
     .mk .FuncDecl 0 none [ident 0, funcType 0 (fieldList 0 []) [], blockStmt 0 stmts]]

/-- The call `wrap_1(... wrap_N(f) ...)`: each wrapper is given by the
object its callee resolves to and by its `Fun` expression. -/
def wrapChain : List (Option Object × Node) → Node → Node
  | [], f => f
  | w :: ws, f => callExpr w.1 w.2 [wrapChain ws f]

/-! ## Objects and statements of `testdata/src/a/a.go`

Positions are byte columns in the line of the statement (a tab is one
column). -/

/-- The function `time.Since`. -/
def timeSince : Option Object := some (.Func ⟨"Since", some ⟨"time"⟩⟩)

/-- The function `time.Now`. -/
def timeNow : Option Object := some (.Func ⟨"Now", some ⟨"time"⟩⟩)

/-- The function `fmt.Println`. -/
def fmtPrintln : Option Object := some (.Func ⟨"Println", some ⟨"fmt"⟩⟩)

/-- The method `(time.Duration).Seconds`. -/
def durationSeconds : Option Object := some (.Func ⟨"Seconds", some ⟨"time"⟩⟩)

/-- The functions `x` and `x2` of package `a`. -/
def funcX (name : String) : Option Object := some (.Func ⟨name, some ⟨"a"⟩⟩)

/-- The call `time.Since(now)` with `time` at column `p`. -/
def sinceNow (p : Pos) : Node :=
  callExpr timeSince (selectorExpr (ident p) (ident (p + 5))) [ident (p + 11)]

/-- The type `func()` with `func` at column `p`. -/
def funcNoArgs (p : Pos) : Node := funcType p (fieldList (p + 4) []) []

/-- Line 40: `defer time.Since(now)`. -/
def line40 : Node := deferStmt 2 (sinceNow 8)

/-- Line 42: `defer fmt.Println(time.Since(time.Now()))`. -/
def line42 : Node :=
  deferStmt 2
    (callExpr fmtPrintln (selectorExpr (ident 8) (ident 12))
      [callExpr timeSince (selectorExpr (ident 20) (ident 25))
        [callExpr timeNow (selectorExpr (ident 31) (ident 36)) []]])

/-- Line 44: the flagged call `time.Since(now)` of
`defer x2(time.Since(now).Seconds())`. -/
def line44Since : Node := sinceNow 11

/-- Line 44: `defer x2(time.Since(now).Seconds())`. -/
def line44 : Node :=
  deferStmt 2
    (callExpr (funcX "x2") (ident 8)
      [callExpr durationSeconds (selectorExpr line44Since (ident 27)) []])

/-- Line 22: `defer fmt.Println(evalBefore)`. -/
def line22 : Node :=
  deferStmt 2 (callExpr fmtPrintln (selectorExpr (ident 8) (ident 12)) [ident 20])

/-- The call `do(func() { ... })` of line 24 with the given statements as
the body of the literal; `do` is a variable. -/
def doLiteral (body : List Node) : Node :=
  callExpr (some (.Var "do")) (ident 8) [funcLit (funcNoArgs 11) (blockStmt 18 body)]

/-- Line 24: `defer do(func() { time.Since(now) })`. -/
def line24 : Node := deferStmt 2 (doLiteral [exprStmt (sinceNow 20)])

/-- Line 46: the flagged call `time.Since(now)` of
`defer (&y{}).B(time.Since(now).Seconds())`. -/
def line46Since : Node := sinceNow 17

/-- Line 46: the callee expression `(&y{}).B`. -/
def line46Fun : Node :=
  selectorExpr (parenExpr 8 (unaryExpr 9 (compositeLit (ident 10) []))) (ident 15)

/-- Line 46: `defer (&y{}).B(time.Since(now).Seconds())`. -/
def line46 : Node :=
  deferStmt 2
    (callExpr (funcX "B") line46Fun
      ([] ++ callExpr durationSeconds (selectorExpr line46Since (ident 33)) [] :: []))

/-- Line 28: `defer x((func() time.Duration { return time.Since(now) })())`;
the callee of the call of the literal does not resolve. -/
def line28 : Node :=
  deferStmt 2
    (callExpr (funcX "x") (ident 8)
      [callExpr none
        (parenExpr 10
          (funcLit
            (funcType 11 (fieldList 15 [])
              [fieldList 18 [field [] (selectorExpr (ident 18) (ident 23))]])
            (blockStmt 32 [returnStmt 34 [sinceNow 41]])))
        []])

/-- Lines 18 to 20, on one line:
`defer func() { fmt.Println(time.Since(now)) }()`. -/
def line18 : Node :=
  deferStmt 2
    (callExpr none
      (funcLit (funcNoArgs 8)
        (blockStmt 15
          [exprStmt (callExpr fmtPrintln (selectorExpr (ident 17) (ident 21)) [sinceNow 29])]))
      [])

/-! ## Further statements -/

/-- The flagged call of `nestedDefer`, at column 25. -/
def nestedSince : Node := sinceNow 25

/-- The body `{ defer x(time.Since(now)) }` of the literal of `nestedDefer`. -/
def nestedBody : Node :=
  blockStmt 15 [deferStmt 17 (callExpr (funcX "x") (ident 23) [nestedSince])]

/-- The statement `defer func() { defer x(time.Since(now)) }()`. -/
def nestedDefer : Node :=
  deferStmt 2 (callExpr none (funcLit (funcNoArgs 8) nestedBody) [])

/-- The flagged call of `sizeofCall`, at column 45. -/
def sizeofSince : Node := sinceNow 45

/-- The call
`fmt.Println(struct{ a [unsafe.Sizeof(time.Since(now))]byte }{})`:
the array length is a constant, `unsafe.Sizeof` being a builtin. -/
def sizeofCall : Node :=
  callExpr fmtPrintln (selectorExpr (ident 8) (ident 12))
    [compositeLit
      (structType 20
        (fieldList 26
          [field [ident 28]
            (arrayType 30
              (callExpr (some (.Builtin "Sizeof")) (selectorExpr (ident 31) (ident 38))
                [sizeofSince])
              (ident 62))]))
      []]

/-- The call `fmt.Println(time.Since(a), time.Since(b))`. -/
def twoSinces : Node :=
  callExpr fmtPrintln (selectorExpr (ident 8) (ident 12))
    [callExpr timeSince (selectorExpr (ident 20) (ident 25)) [ident 31],
     callExpr timeSince (selectorExpr (ident 35) (ident 40)) [ident 46]]

/-- The call `fmt.Println(wrap(wrap(time.Since(now))))` as a chain of two
wrappers around the flagged call. -/
def wrappedTwice : Node :=
  callExpr fmtPrintln (selectorExpr (ident 8) (ident 12))
    [wrapChain [(funcX "wrap", ident 20), (funcX "wrap", ident 25)] (sinceNow 30)]

/-- The flagged call `time.Since(x)` of `crossedDefer`, at column 27. -/
def crossedInner : Node := sinceNow 27

/-- The flagged call `time.Since(y)` of `crossedDefer`, at column 45. -/
def crossedOuter : Node := sinceNow 45

/-- The statement
`defer a(func() { defer b(time.Since(x)) }, time.Since(y))`. -/
def crossedDefer : Node :=
  deferStmt 2
    (callExpr (funcX "a") (ident 8)
      [funcLit (funcNoArgs 10)
        (blockStmt 17 [deferStmt 19 (callExpr (funcX "b") (ident 25) [crossedInner])]),
       crossedOuter])

/-- The inner flagged call `time.Since(start)` of `sinceInSince`, at
column 28. -/
def sinceInner : Node := sinceNow 28

/-- The argument `now.Add(-time.Since(start))` of `sinceInSince`. -/
def sinceArg : Node :=
  callExpr (some (.Func ⟨"Add", some ⟨"time"⟩⟩)) (selectorExpr (ident 19) (ident 23))
    [unaryExpr 27 sinceInner]

/-- The call `time.Since(now.Add(-time.Since(start)))`. -/
def sinceInSince : Node :=
  callExpr timeSince (selectorExpr (ident 8) (ident 13)) [sinceArg]

/-- The call `f(time.Since(now))` where `f` is a variable of function type. -/
def varCall : Node := callExpr (some (.Var "f")) (ident 8) [sinceNow 10]

/-- A defer statement whose `Call` is nil. -/
def nilDefer : Node := .mk .DeferStmt 2 none []

/-- The method `Error` of the universe type `error`: it has no package. -/
def errorError : Func := ⟨"Error", none⟩

/-- The flagged call `time.Since(b)` of `truncateCall`, at column 43. -/
def truncateArg : Node := sinceNow 43

/-- The call `fmt.Println(time.Since(a).Truncate(time.Since(b)))`: one
wrapping call, of the method `(time.Duration).Truncate`, whose callee
expression `time.Since(a).Truncate` holds the flagged call at column 20. -/
def truncateCall : Node :=
  callExpr fmtPrintln (selectorExpr (ident 8) (ident 12))
    [wrapChain
      [(some (.Func ⟨"Truncate", some ⟨"time"⟩⟩), selectorExpr (sinceNow 20) (ident 34))]
      truncateArg]

/-- A whole file with the positions the parser gives (offset in the file
plus one; lines are indented by one tab inside the brackets):

    line 1:   package a
    line 3:   import (
    line 4:       "fmt"
    line 5:       "time"
    line 6:   )
    line 8:   func _() {
    line 9:       now := time.Now()
    line 10:      defer fmt.Println(time.Since(time.Now()))
    line 11:      defer fmt.Println(time.Since(now))
    line 12:  }
-/
def twoDefersFile : Node :=
  file 1 (ident 9)
    [genDecl 12 [importSpec (basicLit 22), importSpec (basicLit 29)],
     funcDecl (ident 44) (funcType 39 (fieldList 45 []) [])
       (blockStmt 48
         [assignStmt (ident 51) (callExpr timeNow (selectorExpr (ident 58) (ident 63)) []),
          deferStmt 70
            (callExpr fmtPrintln (selectorExpr (ident 76) (ident 80))
              [callExpr timeSince (selectorExpr (ident 88) (ident 93))
                [callExpr timeNow (selectorExpr (ident 99) (ident 104)) []]]),
          deferStmt 113
            (callExpr fmtPrintln (selectorExpr (ident 119) (ident 123)) [sinceNow 131])])]

/-! ## The walk in closed form -/

theorem Node.induction {P : Node → Prop}
    (step : ∀ k p c ch, (∀ x ∈ ch, P x) → P (.mk k p c ch)) : ∀ n, P n := by
  intro n
  refine @Node.rec P (fun l => ∀ x ∈ l, P x) (fun k p c ch ih => step k p c ch ih) ?_ ?_ n
  · intro x hx
    cases hx
  · intro hd tl ihd itl x hx
    rcases List.mem_cons.mp hx with rfl | hx
    · exact ihd
    · exact itl x hx

theorem diagsOf_append (a b : List Node) : diagsOf (a ++ b) = diagsOf a ++ diagsOf b := by
  simp [diagsOf]

theorem isExpr_CallExpr : NodeKind.isExpr .CallExpr = true := rfl

theorem flagged_nilPkg (n : Node) : n.flagged = true → n.nilPkg = false := by
  rcases n with ⟨k, p, c, ch⟩
  simp only [Node.flagged, Node.nilPkg, Node.kind, Node.callee]
  rcases c with _ | (fn | v | b) <;> simp [calleeIsTimeSince, calleeNilPkg]
  intro _ h
  simp [h]

theorem flagged_iff (n : Node) :
    n.flagged = true ↔ n.kind = .CallExpr ∧ calleeIsTimeSince n.callee = true := by
  simp [Node.flagged]

theorem checkDeferCall_eq (n : Node) :
    checkDeferCall n =
      if n.nilPkg then none
      else some (if n.flagged then [diagOf n] else [], n.kind.isExpr) := by
  rcases n with ⟨k, p, c, ch⟩
  by_cases hk : k = .CallExpr
  · subst hk
    rcases c with _ | (fn | v | b)
    · simp [checkDeferCall, Node.nilPkg, Node.flagged, Node.kind, Node.callee,
        calleeIsTimeSince, calleeNilPkg, isExpr_CallExpr]
    · rcases h : isTimeSince fn with _ | (_ | _) <;>
        simp [checkDeferCall, Node.nilPkg, Node.flagged, Node.kind, Node.callee,
          calleeIsTimeSince, calleeNilPkg, isExpr_CallExpr, h, diagOf, Node.pos]
    · simp [checkDeferCall, Node.nilPkg, Node.flagged, Node.kind, Node.callee,
        calleeIsTimeSince, calleeNilPkg, isExpr_CallExpr]
    · simp [checkDeferCall, Node.nilPkg, Node.flagged, Node.kind, Node.callee,
        calleeIsTimeSince, calleeNilPkg, isExpr_CallExpr]
  · by_cases he : k.isExpr = true <;>
      simp [checkDeferCall, Node.nilPkg, Node.flagged, Node.kind, hk, he]

theorem walkOf_nil : walkOf [] = some [] := by
  simp [walkOf, diagsOf]

theorem walkOf_append (a b : List Node) :
    walkOf (a ++ b) =
      match walkOf a with
      | none => none
      | some x =>
        match walkOf b with
        | none => none
        | some y => some (x ++ y) := by
  unfold walkOf
  by_cases ha : a.any Node.nilPkg = true <;> by_cases hb : b.any Node.nilPkg = true <;>
    simp [ha, hb, diagsOf_append, List.any_append]

theorem InspectList_eq (ch : List Node)
    (ih : ∀ x ∈ ch, Inspect checkDeferCall x = walkOf (exprReachable x)) :
    InspectList checkDeferCall ch = walkOf (exprReachableList ch) := by
  induction ch with
  | nil => simp [InspectList, exprReachableList, walkOf_nil]
  | cons a t iht =>
    have h1 := ih a (List.mem_cons_self a t)
    have h2 := iht (fun x hx => ih x (List.mem_cons_of_mem a hx))
    rw [InspectList, exprReachableList, walkOf_append, h1, h2]
    cases walkOf (exprReachable a) <;> cases walkOf (exprReachableList t) <;> rfl

theorem Inspect_eq : ∀ n, Inspect checkDeferCall n = walkOf (exprReachable n) := by
  intro n
  induction n using Node.induction with
  | step k p c ch ih =>
    have hl := InspectList_eq ch ih
    rw [Inspect, checkDeferCall_eq, hl, exprReachable]
    by_cases hp : (Node.mk k p c ch).nilPkg = true
    · simp [hp, walkOf]
    · have hp2 : (Node.mk k p c ch).nilPkg = false := by simpa using hp
      by_cases he : k.isExpr = true
      · by_cases hf : (Node.mk k p c ch).flagged = true
        · by_cases hq : (exprReachableList ch).any Node.nilPkg = true <;>
            simp [hp2, he, hf, Node.kind, walkOf, hq, diagsOf]
        · have hf2 : (Node.mk k p c ch).flagged = false := by simpa using hf
          by_cases hq : (exprReachableList ch).any Node.nilPkg = true <;>
            simp [hp2, he, hf2, Node.kind, walkOf, hq, diagsOf]
      · have he2 : k.isExpr = false := by simpa using he
        have hf2 : (Node.mk k p c ch).flagged = false := by
          simp only [Node.flagged, Node.kind]
          have : k ≠ .CallExpr := by
            intro h
            rw [h] at he2
            exact absurd he2 (by decide)
          simp [this]
        simp [hp2, he2, hf2, Node.kind, walkOf, diagsOf]

theorem Inspect_of_pkgsPresent (n : Node) (h : pkgsPresent n = true) :
    Inspect checkDeferCall n = some (diagsOf (exprReachable n)) := by
  rw [Inspect_eq, walkOf]
  have : (exprReachable n).any Node.nilPkg = false := by
    rw [Bool.eq_false_iff]
    intro hc
    obtain ⟨m, hm, hn⟩ := List.any_eq_true.mp hc
    have := List.all_eq_true.mp h m hm
    simp [hn] at this
  simp [this]

/-! ## Membership in the node lists -/

theorem mem_exprReachableList {m : Node} (l : List Node) :
    m ∈ exprReachableList l ↔ ∃ x ∈ l, m ∈ exprReachable x := by
  induction l with
  | nil => simp [exprReachableList]
  | cons a t ih => simp [exprReachableList, ih]

theorem mem_nodesList {m : Node} (l : List Node) :
    m ∈ nodesList l ↔ ∃ x ∈ l, m ∈ nodes x := by
  induction l with
  | nil => simp [nodesList]
  | cons a t ih => simp [nodesList, ih]

theorem self_mem_exprReachable (n : Node) : n ∈ exprReachable n := by
  rcases n with ⟨k, p, c, ch⟩
  simp [exprReachable]

theorem self_mem_nodes (n : Node) : n ∈ nodes n := by
  rcases n with ⟨k, p, c, ch⟩
  simp [nodes]

theorem mem_nodes_of_child {n x m : Node} (hx : x ∈ n.children) (hm : m ∈ nodes x) :
    m ∈ nodes n := by
  rcases n with ⟨k, p, c, ch⟩
  simp only [nodes, List.mem_cons]
  right
  exact (mem_nodesList ch).mpr ⟨x, hx, hm⟩

theorem mem_nodes_trans : ∀ (n : Node) {x m : Node}, x ∈ nodes n → m ∈ nodes x → m ∈ nodes n := by
  intro n
  induction n using Node.induction with
  | step k p c ch ih =>
    intro x m hx hm
    simp only [nodes, List.mem_cons] at hx
    rcases hx with rfl | hx
    · exact hm
    · obtain ⟨y, hy, hxy⟩ := (mem_nodesList ch).mp hx
      have := ih y hy hxy hm
      simp only [nodes, List.mem_cons]
      right
      exact (mem_nodesList ch).mpr ⟨y, hy, this⟩

theorem exprReachable_subset_nodes : ∀ (n : Node) {m : Node}, m ∈ exprReachable n → m ∈ nodes n := by
  intro n
  induction n using Node.induction with
  | step k p c ch ih =>
    intro m hm
    simp only [exprReachable, List.mem_cons] at hm
    rcases hm with rfl | hm
    · exact self_mem_nodes _
    · by_cases he : k.isExpr = true
      · simp only [he, if_true] at hm
        obtain ⟨y, hy, hmy⟩ := (mem_exprReachableList ch).mp hm
        simp only [nodes, List.mem_cons]
        right
        exact (mem_nodesList ch).mpr ⟨y, hy, ih y hy hmy⟩
      · simp [he] at hm

theorem exprReachable_of_edge {a b m : Node} (h : ExprEdge a b) (hm : m ∈ exprReachable b) :
    m ∈ exprReachable a := by
  rcases a with ⟨k, p, c, ch⟩
  obtain ⟨he, hb⟩ := h
  simp only [Node.kind] at he
  simp only [Node.children] at hb
  simp only [exprReachable, he, if_true, List.mem_cons]
  right
  exact (mem_exprReachableList ch).mpr ⟨b, hb, hm⟩

theorem reach_of_mem_exprReachable : ∀ (n : Node) {m : Node}, m ∈ exprReachable n → Reach n m := by
  intro n
  induction n using Node.induction with
  | step k p c ch ih =>
    intro m hm
    simp only [exprReachable, List.mem_cons] at hm
    rcases hm with rfl | hm
    · exact Relation.ReflTransGen.refl
    · by_cases he : k.isExpr = true
      · simp only [he, if_true] at hm
        obtain ⟨y, hy, hmy⟩ := (mem_exprReachableList ch).mp hm
        exact Relation.ReflTransGen.head ⟨he, hy⟩ (ih y hy hmy)
      · simp [he] at hm

theorem mem_exprReachable_iff (n m : Node) : m ∈ exprReachable n ↔ Reach n m := by
  constructor
  · exact reach_of_mem_exprReachable n
  · intro h
    induction h using Relation.ReflTransGen.head_induction_on with
    | refl => exact self_mem_exprReachable m
    | head hab _ ih => exact exprReachable_of_edge hab ih

theorem preorderList_eq_filter (types : List NodeKind) (l : List Node) :
    preorderList types l = (nodesList l).filter (fun n => decide (n.kind ∈ types)) := by
  have key : ∀ n, preorder types n = (nodes n).filter (fun n => decide (n.kind ∈ types)) := by
    intro n
    induction n using Node.induction with
    | step k p c ch ih =>
      have hl : preorderList types ch
          = (nodesList ch).filter (fun n => decide (n.kind ∈ types)) := by
        induction ch with
        | nil => simp [preorderList, nodesList]
        | cons a t iht =>
          rw [preorderList, nodesList, List.filter_append, ih a (List.mem_cons_self a t),
            iht (fun x hx => ih x (List.mem_cons_of_mem a hx))]
      rw [preorder, nodes, hl]
      by_cases hk : k ∈ types <;> simp [List.filter_cons, Node.kind, hk]
  induction l with
  | nil => simp [preorderList, nodesList]
  | cons a t iht => rw [preorderList, nodesList, List.filter_append, key a, iht]

theorem mem_preorderList_defer {d : Node} (l : List Node) :
    d ∈ preorderList [.DeferStmt] l ↔ d ∈ nodesList l ∧ d.kind = .DeferStmt := by
  rw [preorderList_eq_filter]
  simp [List.mem_filter]


/-! ## The run in closed form -/

theorem pkgsPresent_iff (n : Node) :
    pkgsPresent n = true ↔ (exprReachable n).any Node.nilPkg = false := by
  rw [pkgsPresent, List.all_eq_true, Bool.eq_false_iff]
  constructor
  · intro h hc
    obtain ⟨m, hm, hn⟩ := List.any_eq_true.mp hc
    have := h m hm
    simp [hn] at this
  · intro h m hm
    by_cases hn : m.nilPkg = true
    · exact absurd (List.any_eq_true.mpr ⟨m, hm, hn⟩) h
    · simp [hn]

theorem visitDefer_eq (d : Node) :
    visitDefer d = if deferOk d then some ((flaggedReached d).map diagOf) else none := by
  unfold visitDefer deferOk flaggedReached
  rcases d.Call with _ | call
  · simp
  · simp only [Inspect_eq, walkOf, diagsOf]
    by_cases h : pkgsPresent call = true
    · have := (pkgsPresent_iff call).mp h
      simp [h, this]
    · have h2 : (exprReachable call).any Node.nilPkg = true := by
        by_contra hc
        exact h ((pkgsPresent_iff call).mpr (by simpa using hc))
      simp [h, h2]

theorem forEach_visitDefer_eq (l : List Node) :
    forEach visitDefer l =
      if l.all deferOk then some ((l.flatMap flaggedReached).map diagOf) else none := by
  induction l with
  | nil => simp [forEach]
  | cons a t ih =>
    rw [forEach, ih, visitDefer_eq]
    by_cases ha : deferOk a = true <;> by_cases ht : t.all deferOk = true <;>
      simp [ha, ht, List.flatMap_cons]

theorem run_eq (pass : Pass) :
    run pass =
      if pass.wellFormed then some ⟨(reportedCalls pass).map diagOf, none, none⟩ else none := by
  unfold run Preorder Pass.wellFormed reportedCalls
  rw [forEach_visitDefer_eq]
  by_cases h : (preorderList [.DeferStmt] pass.Files).all deferOk = true <;> simp [h]

theorem reported_eq (pass : Pass) (h : pass.wellFormed = true) :
    reported pass = some ((reportedCalls pass).map diagOf) := by
  simp [reported, run_eq, h]

theorem mem_reportedCalls (pass : Pass) (c : Node) :
    c ∈ reportedCalls pass ↔
      (c.kind = .CallExpr ∧ calleeIsTimeSince c.callee = true) ∧
        ∃ d, (d ∈ nodesList pass.Files ∧ d.kind = .DeferStmt) ∧
          ∃ call, d.Call = some call ∧ Reach call c := by
  unfold reportedCalls
  rw [List.mem_flatMap]
  constructor
  · rintro ⟨d, hd, hc⟩
    unfold flaggedReached at hc
    rcases hcall : d.Call with _ | call
    · simp [hcall] at hc
    · simp only [hcall, List.mem_filter] at hc
      exact ⟨(flagged_iff c).mp hc.2, d, (mem_preorderList_defer _).mp hd, call, hcall,
        (mem_exprReachable_iff call c).mp hc.1⟩
  · rintro ⟨hf, d, hd, call, hcall, hr⟩
    refine ⟨d, (mem_preorderList_defer _).mpr hd, ?_⟩
    unfold flaggedReached
    simp only [hcall, List.mem_filter]
    exact ⟨(mem_exprReachable_iff call c).mpr hr, (flagged_iff c).mpr hf⟩

/-! ## Claims -/

/-- C1 (as amended): on a well-formed pass the diagnostics are those of a
list `L` of call nodes, one diagnostic per element, and a call `c` belongs
to `L` exactly when its callee resolves to `time.Since` and `c` is reachable
from the call of some defer statement of the tree along edges that leave
expression nodes (callee, receiver, operand and argument edges alike), so
never through a function-literal body or a field list. -/
theorem C1_reported_iff_flagged_and_reachable (pass : Pass)
    (hwf : pass.wellFormed = true) :
    ∃ L : List Node, reported pass = some (L.map diagOf) ∧
      ∀ c : Node, c ∈ L ↔
        (c.kind = .CallExpr ∧ calleeIsTimeSince c.callee = true) ∧
          ∃ d, (d ∈ nodesList pass.Files ∧ d.kind = .DeferStmt) ∧
            ∃ call, d.Call = some call ∧ Reach call c :=
  ⟨reportedCalls pass, reported_eq pass hwf, mem_reportedCalls pass⟩

/-- C1, witness: line 44 of the test data,
`defer x2(time.Since(now).Seconds())`. -/
theorem C1_reported_iff_flagged_and_reachable_witness :
    (Pass.mk [fileOf [line44]]).wellFormed = true ∧
    ∃ L : List Node, reported (Pass.mk [fileOf [line44]]) = some (L.map diagOf) ∧
      ∀ c : Node, c ∈ L ↔
        (c.kind = .CallExpr ∧ calleeIsTimeSince c.callee = true) ∧
          ∃ d, (d ∈ nodesList (Pass.mk [fileOf [line44]]).Files ∧ d.kind = .DeferStmt) ∧
            ∃ call, d.Call = some call ∧ Reach call c :=
  ⟨by decide, C1_reported_iff_flagged_and_reachable (Pass.mk [fileOf [line44]]) (by decide)⟩

/-- C1 (as stated) fails on line 44 of the test data,
`defer x2(time.Since(now).Seconds())`: the call `time.Since(now)` resolves
to `time.Since` and is reported, yet no flagged call is reachable from the
deferred call by argument edges only, the flagged call being the receiver
of the selector in the callee position of `Seconds()`. -/
theorem C1_counterexample_receiver_of_method_call :
    reported (Pass.mk [fileOf [line44]]) = some [diagOf line44Since] ∧
    line44Since.flagged = true ∧
    argReachedFlagged (Pass.mk [fileOf [line44]]) = [] :=
  ⟨by decide, by decide, rfl⟩

/-- C2: every diagnostic of a run has the message
"defer func should not evaluate time.Since" and the position of a call
expression of the tree whose callee resolves to `time.Since`. -/
theorem C2_diagnostic_position_and_message (pass : Pass) (r : Outcome)
    (h : run pass = some r) :
    ∀ d ∈ r.diagnostics,
      d.Message = "defer func should not evaluate time.Since" ∧
      ∃ c ∈ nodesList pass.Files,
        c.kind = .CallExpr ∧ calleeIsTimeSince c.callee = true ∧ d = ⟨c.pos, reportMessage⟩ := by
  intro d hd
  rw [run_eq] at h
  by_cases hwf : pass.wellFormed = true
  · simp only [hwf, if_true, Option.some.injEq] at h
    subst h
    simp only [List.mem_map] at hd
    obtain ⟨c, hc, rfl⟩ := hd
    obtain ⟨hf, dn, hdn, call, hcall, hr⟩ := (mem_reportedCalls pass c).mp hc
    refine ⟨rfl, c, ?_, hf.1, hf.2, rfl⟩
    obtain ⟨x, hx, hdx⟩ := (mem_nodesList pass.Files).mp hdn.1
    have hcallmem : call ∈ dn.children := by
      unfold Node.Call at hcall
      exact List.mem_of_mem_head? hcall
    have h1 : c ∈ nodes call :=
      exprReachable_subset_nodes call ((mem_exprReachable_iff call c).mpr hr)
    have h2 : c ∈ nodes dn := mem_nodes_of_child hcallmem h1
    exact (mem_nodesList pass.Files).mpr ⟨x, hx, mem_nodes_trans x hdx h2⟩
  · simp [hwf] at h

/-- C2, witness: line 42 of the test data,
`defer fmt.Println(time.Since(time.Now()))`. -/
theorem C2_diagnostic_position_and_message_witness :
    run (Pass.mk [fileOf [line42]]) = some (Outcome.mk [⟨20, reportMessage⟩] none none) ∧
    ∀ d ∈ (Outcome.mk [⟨20, reportMessage⟩] none none).diagnostics,
      d.Message = "defer func should not evaluate time.Since" ∧
      ∃ c ∈ nodesList (Pass.mk [fileOf [line42]]).Files,
        c.kind = .CallExpr ∧ calleeIsTimeSince c.callee = true ∧ d = ⟨c.pos, reportMessage⟩ :=
  ⟨by decide, C2_diagnostic_position_and_message (Pass.mk [fileOf [line42]])
    (Outcome.mk [⟨20, reportMessage⟩] none none) (by decide)⟩


/-! ## Walks of calls -/

theorem walkOf_quiet (l : List Node)
    (h : ∀ m ∈ l, m.flagged = false ∧ m.nilPkg = false) : walkOf l = some [] := by
  have h1 : l.any Node.nilPkg = false := by
    rw [Bool.eq_false_iff]
    intro hc
    obtain ⟨m, hm, hn⟩ := List.any_eq_true.mp hc
    rw [(h m hm).2] at hn
    exact Bool.noConfusion hn
  have h2 : l.filter Node.flagged = [] := by
    rw [List.filter_eq_nil_iff]
    intro m hm
    simp [(h m hm).1]
  simp [walkOf, diagsOf, h1, h2]

theorem noSince_mem {n m : Node} (h : noSince n = true) (hm : m ∈ nodes n) :
    m.flagged = false ∧ m.nilPkg = false := by
  have := List.all_eq_true.mp h m hm
  simpa using this

theorem Inspect_noSince (n : Node) (h : noSince n = true) :
    Inspect checkDeferCall n = some [] := by
  rw [Inspect_eq]
  exact walkOf_quiet _ (fun m hm => noSince_mem h (exprReachable_subset_nodes n hm))

theorem InspectList_noSince (l : List Node) (h : ∀ x ∈ l, noSince x = true) :
    InspectList checkDeferCall l = some [] := by
  induction l with
  | nil => rfl
  | cons a t ih =>
    rw [InspectList, Inspect_noSince a (h a (List.mem_cons_self a t)),
      ih (fun x hx => h x (List.mem_cons_of_mem a hx))]
    rfl

theorem Inspect_flagged (n : Node) (hf : n.flagged = true) :
    Inspect checkDeferCall n =
      match InspectList checkDeferCall n.children with
      | none => none
      | some ds => some (diagOf n :: ds) := by
  rcases n with ⟨k, p, c, ch⟩
  have hk : k.isExpr = true := by
    have := ((flagged_iff _).mp hf).1
    simp only [Node.kind] at this
    rw [this]
    rfl
  rw [Inspect, checkDeferCall_eq]
  simp only [flagged_nilPkg _ hf, hf, Node.kind, hk, Node.children, if_true, Bool.false_eq_true,
    if_false]
  rcases InspectList checkDeferCall ch with _ | ds <;> rfl

theorem Inspect_callExpr_plain (c : Option Object) (fn : Node) (args : List Node)
    (h1 : calleeIsTimeSince c = false) (h2 : calleeNilPkg c = false) :
    Inspect checkDeferCall (callExpr c fn args) = InspectList checkDeferCall (fn :: args) := by
  rw [callExpr, Inspect, checkDeferCall_eq]
  simp only [Node.nilPkg, Node.flagged, Node.kind, Node.callee, h1, h2, Bool.and_false,
    isExpr_CallExpr]
  rcases InspectList checkDeferCall (fn :: args) with _ | ds <;> simp

theorem Inspect_flagged_leaf (f : Node) (hf : f.flagged = true)
    (hch : ∀ x ∈ f.children, noSince x = true) :
    Inspect checkDeferCall f = some [diagOf f] := by
  rw [Inspect_flagged f hf, InspectList_noSince _ hch]

theorem InspectList_cons (a : Node) (t : List Node) :
    InspectList checkDeferCall (a :: t) =
      match Inspect checkDeferCall a with
      | none => none
      | some x =>
        match InspectList checkDeferCall t with
        | none => none
        | some y => some (x ++ y) := by
  rw [InspectList]
  cases Inspect checkDeferCall a <;> cases InspectList checkDeferCall t <;> rfl

theorem Inspect_wrapChain (ws : List (Option Object × Node)) (f : Node)
    (hws : ∀ w ∈ ws,
      calleeIsTimeSince w.1 = false ∧ calleeNilPkg w.1 = false ∧ noSince w.2 = true)
    (hf : f.flagged = true) (hch : ∀ x ∈ f.children, noSince x = true) :
    Inspect checkDeferCall (wrapChain ws f) = some [diagOf f] := by
  induction ws with
  | nil => exact Inspect_flagged_leaf f hf hch
  | cons w t ih =>
    obtain ⟨h1, h2, h3⟩ := hws w (List.mem_cons_self w t)
    have iht := ih (fun x hx => hws x (List.mem_cons_of_mem w hx))
    rw [wrapChain, Inspect_callExpr_plain _ _ _ h1 h2, InspectList_cons, Inspect_noSince _ h3,
      InspectList_cons, iht]
    rfl

/-! ## Function-literal bodies -/

theorem Inspect_eraseBodies : ∀ (n : Node) (inLit : Bool),
    Inspect checkDeferCall (eraseBodies inLit n) = Inspect checkDeferCall n := by
  intro n
  induction n using Node.induction with
  | step k p c ch ih =>
    intro inLit
    have hl : ∀ fl, InspectList checkDeferCall (eraseBodiesList fl ch)
        = InspectList checkDeferCall ch := by
      intro fl
      induction ch with
      | nil => rfl
      | cons a t iht =>
        rw [eraseBodiesList, InspectList, InspectList, ih a (List.mem_cons_self a t),
          iht (fun x hx => ih x (List.mem_cons_of_mem a hx))]
    rw [eraseBodies]
    by_cases hb : (inLit && k == .BlockStmt) = true
    · have hk : k = .BlockStmt := by
        simp only [Bool.and_eq_true, beq_iff_eq] at hb
        exact hb.2
      rw [if_pos hb]
      subst hk
      rw [Inspect, Inspect]
      simp [checkDeferCall, Node.kind, NodeKind.isExpr]
    · rw [if_neg hb, Inspect, Inspect, hl]
      rfl


/-- C3 (as amended): when the walk meets no function named "Since" without
a package, the Detector yields one diagnostic for every call that resolves
to `time.Since` and is reachable from the deferred call through expression
nodes only (outside every function-literal body and every field list), in
walk order and with nothing deduplicated; in particular a call whose two
arguments are flagged calls yields exactly two diagnostics, one at each. -/
theorem C3_one_diagnostic_per_reachable_flagged_call (call : Node)
    (h : pkgsPresent call = true) :
    (∃ ds, Inspect checkDeferCall call = some ds ∧
      ds = ((exprReachable call).filter Node.flagged).map diagOf ∧
      ds.length = ((exprReachable call).filter Node.flagged).length) ∧
    ∀ (oc : Option Object) (fn a b : Node),
      calleeIsTimeSince oc = false → calleeNilPkg oc = false → noSince fn = true →
      a.flagged = true → b.flagged = true →
      (∀ x ∈ a.children, noSince x = true) → (∀ x ∈ b.children, noSince x = true) →
      Inspect checkDeferCall (callExpr oc fn [a, b]) = some [diagOf a, diagOf b] := by
  refine ⟨⟨_, Inspect_of_pkgsPresent call h, rfl, by simp [diagsOf]⟩, ?_⟩
  intro oc fn a b h1 h2 hfn ha hb hac hbc
  rw [Inspect_callExpr_plain _ _ _ h1 h2, InspectList_cons, Inspect_noSince _ hfn,
    InspectList_cons, Inspect_flagged_leaf a ha hac, InspectList_cons,
    Inspect_flagged_leaf b hb hbc]
  rfl

/-- C3, witness: `defer fmt.Println(time.Since(a), time.Since(b))`. -/
theorem C3_one_diagnostic_per_reachable_flagged_call_witness :
    pkgsPresent twoSinces = true ∧
    ((∃ ds, Inspect checkDeferCall twoSinces = some ds ∧
      ds = ((exprReachable twoSinces).filter Node.flagged).map diagOf ∧
      ds.length = ((exprReachable twoSinces).filter Node.flagged).length) ∧
    ∀ (oc : Option Object) (fn a b : Node),
      calleeIsTimeSince oc = false → calleeNilPkg oc = false → noSince fn = true →
      a.flagged = true → b.flagged = true →
      (∀ x ∈ a.children, noSince x = true) → (∀ x ∈ b.children, noSince x = true) →
      Inspect checkDeferCall (callExpr oc fn [a, b]) = some [diagOf a, diagOf b]) :=
  ⟨by decide, C3_one_diagnostic_per_reachable_flagged_call twoSinces (by decide)⟩

/-- C3 (as stated) fails on
`defer fmt.Println(struct{ a [unsafe.Sizeof(time.Since(now))]byte }{})`:
one call resolving to `time.Since` lies outside every function-literal body
(there is no function literal), yet the Detector yields no diagnostic, the
walk stopping at the field list of the struct type. -/
theorem C3_counterexample_call_under_field_list :
    Inspect checkDeferCall sizeofCall = some [] ∧
    ((outsideBodies false sizeofCall).filter Node.flagged).length = 1 ∧
    (outsideBodies false sizeofCall).filter Node.flagged = [sizeofSince] :=
  ⟨by decide, by decide, rfl⟩

/-- C4 (as stated) fails on
`defer fmt.Println(time.Since(a).Truncate(time.Since(b)))`: a chain of one
wrapping call that is not flagged (`Truncate`) around the flagged call
`time.Since(b)`, whose argument holds no flagged call, yet the statement
yields two diagnostics, the first at the flagged call in the callee
expression of the wrapper (column 20). -/
theorem C4_counterexample_flagged_call_in_wrapper_callee :
    visitDefer (deferStmt 2 truncateCall)
      = some [⟨20, reportMessage⟩, ⟨43, reportMessage⟩] ∧
    truncateArg.flagged = true ∧
    calleeIsTimeSince (some (.Func ⟨"Truncate", some ⟨"time"⟩⟩)) = false ∧
    calleeIsTimeSince fmtPrintln = false ∧
    (∀ x ∈ truncateArg.children, noSince x = true) ∧
    visitDefer (deferStmt 2 truncateCall) ≠ some [⟨truncateArg.pos, reportMessage⟩] := by
  decide

/-- C4 (as amended): for every chain `ws` of wrapping calls (of any length
N) that are not flagged and whose callee expressions hold no call resolving
to `time.Since`, an outer call of the same kind, and every flagged call `f`
below which no further call resolves to `time.Since`, the defer statement
`defer outer(wrap_1(...wrap_N(f)...))` yields exactly one diagnostic, the
one of `f`. -/
theorem C4_depth_independence (oc : Option Object) (ofn : Node)
    (ws : List (Option Object × Node)) (f : Node)
    (hoc : calleeIsTimeSince oc = false ∧ calleeNilPkg oc = false ∧ noSince ofn = true)
    (hws : ∀ w ∈ ws,
      calleeIsTimeSince w.1 = false ∧ calleeNilPkg w.1 = false ∧ noSince w.2 = true)
    (hf : f.flagged = true) (hch : ∀ x ∈ f.children, noSince x = true) (deferPos : Pos) :
    visitDefer (deferStmt deferPos (callExpr oc ofn [wrapChain ws f]))
      = some [⟨f.pos, reportMessage⟩] := by
  show Inspect checkDeferCall (callExpr oc ofn [wrapChain ws f]) = _
  rw [Inspect_callExpr_plain _ _ _ hoc.1 hoc.2.1, InspectList_cons, Inspect_noSince _ hoc.2.2,
    InspectList_cons, Inspect_wrapChain ws f hws hf hch]
  rfl

/-- C4, witness: `defer fmt.Println(wrap(wrap(time.Since(now))))`, N = 2. -/
theorem C4_depth_independence_witness :
    visitDefer (deferStmt 2 wrappedTwice) = some [⟨30, reportMessage⟩] :=
  C4_depth_independence fmtPrintln (selectorExpr (ident 8) (ident 12))
    [(funcX "wrap", ident 20), (funcX "wrap", ident 25)] (sinceNow 30)
    (by decide) (by decide) (by decide) (by decide) 2

/-- C5: a defer statement whose call resolves to `time.Since`, with no further
call resolving to `time.Since` below it, yields exactly one diagnostic, at the
position of that call. -/
theorem C5_flagged_call_as_deferred_action (d c : Node) (hcall : d.Call = some c)
    (hf : c.flagged = true) (hch : ∀ x ∈ c.children, noSince x = true) :
    visitDefer d = some [⟨c.pos, reportMessage⟩] := by
  unfold visitDefer
  rw [hcall]
  exact Inspect_flagged_leaf c hf hch

/-- C5, witness: line 40 of the test data, `defer time.Since(now)`. -/
theorem C5_flagged_call_as_deferred_action_witness :
    visitDefer line40 = some [⟨(sinceNow 8).pos, reportMessage⟩] :=
  C5_flagged_call_as_deferred_action line40 (sinceNow 8) rfl (by decide) (by decide)

/-- C6: a flagged call `f` that is the receiver of a method call `f.m(...)`
among the arguments of a deferred call is reported, whatever the callee
expression of the deferred call, the other arguments and the method are:
the walk reaches `f` through the callee position of the call of `m`. -/
theorem C6_flagged_receiver_of_method_call (oc mc : Option Object)
    (ofn sel f : Node) (pre post margs : List Node) (hf : f.flagged = true)
    (hp : pkgsPresent
      (callExpr oc ofn (pre ++ callExpr mc (selectorExpr f sel) margs :: post)) = true) :
    ∃ ds, Inspect checkDeferCall
        (callExpr oc ofn (pre ++ callExpr mc (selectorExpr f sel) margs :: post)) = some ds ∧
      (⟨f.pos, reportMessage⟩ : Diagnostic) ∈ ds := by
  refine ⟨_, Inspect_of_pkgsPresent _ hp, ?_⟩
  have hr : Reach (callExpr oc ofn (pre ++ callExpr mc (selectorExpr f sel) margs :: post)) f := by
    refine Relation.ReflTransGen.head (b := callExpr mc (selectorExpr f sel) margs) ?_ ?_
    · exact ⟨rfl, by simp [callExpr, Node.children]⟩
    refine Relation.ReflTransGen.head (b := selectorExpr f sel) ?_ ?_
    · exact ⟨rfl, by simp [callExpr, Node.children]⟩
    refine Relation.ReflTransGen.head (b := f) ?_ Relation.ReflTransGen.refl
    exact ⟨rfl, by simp [selectorExpr, Node.children]⟩
  have hm := (mem_exprReachable_iff _ f).mpr hr
  unfold diagsOf
  exact List.mem_map.mpr ⟨f, List.mem_filter.mpr ⟨hm, hf⟩, rfl⟩

/-- C6, witness: line 46 of the test data,
`defer (&y{}).B(time.Since(now).Seconds())`. -/
theorem C6_flagged_receiver_of_method_call_witness :
    ∃ ds, visitDefer line46 = some ds ∧ (⟨17, reportMessage⟩ : Diagnostic) ∈ ds :=
  C6_flagged_receiver_of_method_call (funcX "B") durationSeconds line46Fun (ident 33)
    line46Since [] [] [] (by decide) (by decide)

/-- C7: the diagnostics of a deferred call are the same whatever statements
the bodies of the function literals in it hold: two calls that agree once
those statements are removed yield the same result.  The literal passed as an
argument (line 24) and the literal invoked at once (line 28) yield none. -/
theorem C7_function_literal_bodies_not_walked (a b : Node)
    (h : eraseBodies false a = eraseBodies false b) :
    Inspect checkDeferCall a = Inspect checkDeferCall b ∧
    visitDefer line24 = some [] ∧ visitDefer line28 = some [] := by
  refine ⟨?_, by decide, by decide⟩
  rw [← Inspect_eraseBodies a false, ← Inspect_eraseBodies b false, h]

/-- C7, witness: `do(func() { time.Since(now) })` and `do(func() {})`. -/
theorem C7_function_literal_bodies_not_walked_witness :
    Inspect checkDeferCall (doLiteral [exprStmt (sinceNow 20)])
      = Inspect checkDeferCall (doLiteral []) ∧
    visitDefer line24 = some [] ∧ visitDefer line28 = some [] :=
  C7_function_literal_bodies_not_walked (doLiteral [exprStmt (sinceNow 20)]) (doLiteral []) rfl

/-- C8 (as stated) fails on `defer func() { defer x(time.Since(now)) }()`:
the analysis reports the call `time.Since(now)`, which lies inside the body
of the literal, through the defer statement nested in that body. -/
theorem C8_counterexample_defer_nested_in_body :
    reported (Pass.mk [fileOf [nestedDefer]]) = some [diagOf nestedSince] ∧
    nestedSince ∈ nodes nestedBody ∧ nestedDefer.Call.map Node.children
      = some [funcLit (funcNoArgs 8) nestedBody] :=
  ⟨by decide, List.mem_iff_getElem?.mpr ⟨4, rfl⟩, rfl⟩

/-- C8 (as amended): for every body `B` the statement `defer func() { B }()`
contributes no diagnostic of its own, the Detector yielding none for its
call; calls inside `B` are reported only through defer statements nested in
`B`: a function whose only statement is `defer func() { B }()` gets exactly
the diagnostics of the function whose body is `B`.  Lines 18 to 20 of the
test data, `defer func() { fmt.Println(time.Since(now)) }()`, get none. -/
theorem C8_literal_as_deferred_action (deferPos funcPos lbrace : Pos) (B : List Node) :
    (visitDefer (deferStmt deferPos
      (callExpr none (funcLit (funcNoArgs funcPos) (blockStmt lbrace B)) [])) = some [] ∧
    reported (Pass.mk [fileOf [deferStmt deferPos
      (callExpr none (funcLit (funcNoArgs funcPos) (blockStmt lbrace B)) [])]])
      = reported (Pass.mk [fileOf B])) ∧
    reported (Pass.mk [fileOf [line18]]) = some [] := by
  refine ⟨?_, by decide⟩
  have h1 : visitDefer (deferStmt deferPos
      (callExpr none (funcLit (funcNoArgs funcPos) (blockStmt lbrace B)) [])) = some [] := by
    simp [visitDefer, Node.Call, deferStmt, callExpr, funcLit, funcNoArgs, funcType, fieldList,
      blockStmt, Node.children, Node.pos, Inspect, InspectList, checkDeferCall, Node.kind,
      Node.callee, NodeKind.isExpr]
  refine ⟨h1, ?_⟩
  have h2 : preorderList [.DeferStmt] [fileOf [deferStmt deferPos
      (callExpr none (funcLit (funcNoArgs funcPos) (blockStmt lbrace B)) [])]]
      = deferStmt deferPos
          (callExpr none (funcLit (funcNoArgs funcPos) (blockStmt lbrace B)) [])
        :: preorderList [.DeferStmt] B := by
    simp [fileOf, preorderList, preorder, deferStmt, callExpr, funcLit, funcNoArgs, funcType,
      fieldList, blockStmt, ident, Node.pos]
  have h3 : preorderList [.DeferStmt] [fileOf B] = preorderList [.DeferStmt] B := by
    simp [fileOf, preorderList, preorder, funcType, fieldList, blockStmt, ident]
  unfold reported run Preorder
  simp only [h2, h3]
  rw [forEach, h1]
  rcases forEach visitDefer (preorderList [.DeferStmt] B) with _ | ds <;> simp

/-- C9: when no call node of a deferred call expression resolves to
`time.Since` (and the walk meets no function named "Since" without a
package), the Detector yields no diagnostic. -/
theorem C9_no_false_positives (call : Node)
    (h : ∀ m ∈ nodes call, m.flagged = false) (hp : pkgsPresent call = true) :
    Inspect checkDeferCall call = some [] := by
  rw [Inspect_of_pkgsPresent call hp]
  have : (exprReachable call).filter Node.flagged = [] := by
    rw [List.filter_eq_nil_iff]
    intro m hm
    simp [h m (exprReachable_subset_nodes call hm)]
  simp [diagsOf, this]

/-- C9, witness: line 22 of the test data, `defer fmt.Println(evalBefore)`. -/
theorem C9_no_false_positives_witness :
    Inspect checkDeferCall
      (callExpr fmtPrintln (selectorExpr (ident 8) (ident 12)) [ident 20]) = some [] :=
  C9_no_false_positives (callExpr fmtPrintln (selectorExpr (ident 8) (ident 12)) [ident 20])
    (by decide) (by decide)

/-- C10: for a function with a package, `isTimeSince` returns true exactly
when the name is "Since" and the package path is "time"; so `time.Now`, and a
function named "Since" of another package, are not flagged. -/
theorem C10_isTimeSince_exact (f : Func) (pkg : Package) (h : f.Pkg = some pkg) :
    isTimeSince f = some (decide (f.Name = "Since" ∧ pkg.Path = "time")) ∧
    (f.Name = "Now" → isTimeSince f = some false) ∧
    (pkg.Path ≠ "time" → isTimeSince f = some false) := by
  unfold isTimeSince
  rw [h]
  by_cases hn : f.Name = "Since" <;> by_cases hq : pkg.Path = "time" <;> simp [hn, hq]

/-- C10, witness: the function `time.Since` itself. -/
theorem C10_isTimeSince_exact_witness :
    isTimeSince ⟨"Since", some ⟨"time"⟩⟩ = some true ∧
    (("Since" : String) = "Now" → isTimeSince ⟨"Since", some ⟨"time"⟩⟩ = some false) ∧
    (("time" : String) ≠ "time" → isTimeSince ⟨"Since", some ⟨"time"⟩⟩ = some false) :=
  C10_isTimeSince_exact ⟨"Since", some ⟨"time"⟩⟩ ⟨"time"⟩ rfl

/-! ## Unresolved callees and nested matches -/

theorem mem_diagsOf {l : List Node} {f : Node} (hm : f ∈ l) (hf : f.flagged = true) :
    diagOf f ∈ diagsOf l :=
  List.mem_map.mpr ⟨f, List.mem_filter.mpr ⟨hm, hf⟩, rfl⟩

theorem exprReachable_of_child {n x m : Node} (he : n.kind.isExpr = true)
    (hx : x ∈ n.children) (hm : m ∈ exprReachable x) : m ∈ exprReachable n :=
  exprReachable_of_edge ⟨he, hx⟩ hm

/-- C11: a call node whose callee does not resolve to a declared function
(nil, a variable or a builtin) gets no diagnostic and raises no panic, the
closure returns true and the walk goes on with the children of the node, so
that a flagged call among them is reported. -/
theorem C11_unresolved_callee_is_silent (n : Node) (hk : n.kind = .CallExpr)
    (hc : ∀ fn, n.callee ≠ some (.Func fn)) :
    checkDeferCall n = some ([], true) ∧
    Inspect checkDeferCall n = InspectList checkDeferCall n.children ∧
    ∀ f ∈ n.children, f.flagged = true → pkgsPresent n = true →
      ∃ ds, Inspect checkDeferCall n = some ds ∧ diagOf f ∈ ds := by
  rcases n with ⟨k, p, c, ch⟩
  simp only [Node.kind] at hk
  simp only [Node.callee] at hc
  subst hk
  have h1 : checkDeferCall (Node.mk .CallExpr p c ch) = some ([], true) := by
    rcases c with _ | (fn | v | b)
    · simp [checkDeferCall, Node.kind, Node.callee]
    · exact absurd rfl (hc fn)
    · simp [checkDeferCall, Node.kind, Node.callee]
    · simp [checkDeferCall, Node.kind, Node.callee]
  refine ⟨h1, ?_, ?_⟩
  · rw [Inspect, h1]
    simp only [Node.children]
    cases InspectList checkDeferCall ch <;> rfl
  · intro f hf hfl hp
    refine ⟨_, Inspect_of_pkgsPresent _ hp, mem_diagsOf ?_ hfl⟩
    exact exprReachable_of_child rfl hf (self_mem_exprReachable f)

/-- C11, witness: `defer f(time.Since(now))` with `f` a variable. -/
theorem C11_unresolved_callee_is_silent_witness :
    checkDeferCall varCall = some ([], true) ∧
    Inspect checkDeferCall varCall = InspectList checkDeferCall varCall.children ∧
    ∀ f ∈ varCall.children, f.flagged = true → pkgsPresent varCall = true →
      ∃ ds, Inspect checkDeferCall varCall = some ds ∧ diagOf f ∈ ds :=
  C11_unresolved_callee_is_silent varCall rfl
    (by intro fn h; simp [varCall, callExpr, Node.callee] at h)

/-- C14: a match does not stop the walk.  For a flagged call with a flagged
call `inner` reachable from one of its arguments, the Detector reports the
outer call first and `inner` after it. -/
theorem C14_match_does_not_stop_walk (oc : Option Object) (fn a inner : Node)
    (args : List Node) (hoc : calleeIsTimeSince oc = true) (ha : a ∈ args)
    (hr : Reach a inner) (hi : inner.flagged = true)
    (hp : pkgsPresent (callExpr oc fn args) = true) :
    ∃ rest, Inspect checkDeferCall (callExpr oc fn args)
        = some (diagOf (callExpr oc fn args) :: rest) ∧ diagOf inner ∈ rest := by
  have hf : (callExpr oc fn args).flagged = true := by
    simp [callExpr, Node.flagged, Node.kind, Node.callee, hoc]
  refine ⟨diagsOf (exprReachableList (fn :: args)), ?_, ?_⟩
  · rw [Inspect_of_pkgsPresent _ hp]
    have : exprReachable (callExpr oc fn args)
        = callExpr oc fn args :: exprReachableList (fn :: args) := by
      simp [callExpr, exprReachable, NodeKind.isExpr]
    rw [this]
    simp [diagsOf, List.filter_cons, hf]
  · refine mem_diagsOf ?_ hi
    exact (mem_exprReachableList _).mpr
      ⟨a, List.mem_cons_of_mem fn ha, (mem_exprReachable_iff a inner).mpr hr⟩

/-- C14, witness: `defer time.Since(now.Add(-time.Since(start)))` reports the
call at column 8 and then the call at column 28. -/
theorem C14_match_does_not_stop_walk_witness :
    Inspect checkDeferCall sinceInSince = some [⟨8, reportMessage⟩, ⟨28, reportMessage⟩] ∧
    ∃ rest, Inspect checkDeferCall sinceInSince
        = some (diagOf sinceInSince :: rest) ∧ diagOf sinceInner ∈ rest :=
  ⟨by decide,
   C14_match_does_not_stop_walk timeSince (selectorExpr (ident 8) (ident 13)) sinceArg
    sinceInner [sinceArg] rfl (List.mem_singleton.mpr rfl)
    (Relation.ReflTransGen.head (b := unaryExpr 27 sinceInner)
      ⟨rfl, List.mem_cons_of_mem _ (List.mem_singleton.mpr rfl)⟩
      (Relation.ReflTransGen.head (b := sinceInner)
        ⟨rfl, List.mem_singleton.mpr rfl⟩ Relation.ReflTransGen.refl))
    (by decide) (by decide)⟩

/-- C18: for a function whose name is not "Since", with or without a
package, `isTimeSince` returns false and does not read the package, so a
call resolved to it makes `checkDeferCall` neither report nor panic; the nil
dereference needs the name "Since" together with a nil package. -/
theorem C18_package_read_only_after_name_match (f : Func) (h : f.Name ≠ "Since") :
    isTimeSince f = some false ∧
    isTimeSince ⟨f.Name, none⟩ = some false ∧
    (∀ p ch, checkDeferCall (.mk .CallExpr p (some (.Func f)) ch) = some ([], true)) ∧
    (∀ g : Func, isTimeSince g = none ↔ g.Name = "Since" ∧ g.Pkg = none) := by
  refine ⟨by simp [isTimeSince, h], by simp [isTimeSince, h], ?_, ?_⟩
  · intro p ch
    simp [checkDeferCall, Node.kind, Node.callee, isTimeSince, h]
  · intro g
    unfold isTimeSince
    by_cases hn : g.Name = "Since"
    · rcases hg : g.Pkg with _ | pkg
      · simp [hn]
      · by_cases hq : pkg.Path = "time" <;> simp [hn, hq]
    · simp [hn]

/-- C18, witness: the method `Error` of the universe type `error`. -/
theorem C18_package_read_only_after_name_match_witness :
    isTimeSince errorError = some false ∧
    isTimeSince ⟨errorError.Name, none⟩ = some false ∧
    (∀ p ch, checkDeferCall (.mk .CallExpr p (some (.Func errorError)) ch) = some ([], true)) ∧
    (∀ g : Func, isTimeSince g = none ↔ g.Name = "Since" ∧ g.Pkg = none) :=
  C18_package_read_only_after_name_match errorError (by decide)

/-- C16 (as stated) fails on a file whose only statement is a defer
statement with a nil `Call`: the run panics, it does not return with no
diagnostics. -/
theorem C16_counterexample_nil_call_panics :
    run (Pass.mk [fileOf [nilDefer]]) = none ∧
    nilDefer.Call = none ∧
    run (Pass.mk [fileOf [nilDefer]]) ≠ some ⟨[], none, none⟩ :=
  ⟨by decide, rfl, by decide⟩

/-- C16 (as amended): a defer statement whose `Call` is nil is not skipped.
The callback of `run` hands the nil call to `ast.Inspect` unchecked and the
run panics, whatever else the files hold; only a run in which every defer
statement has a call returns. -/
theorem C16_nil_call_aborts_run (pass : Pass) (d : Node)
    (hd : d ∈ nodesList pass.Files) (hk : d.kind = .DeferStmt) (hc : d.Call = none) :
    visitDefer d = none ∧ run pass = none := by
  have h1 : deferOk d = false := by simp [deferOk, hc]
  refine ⟨by simp [visitDefer, hc], ?_⟩
  rw [run_eq]
  have : pass.wellFormed = false := by
    rw [Bool.eq_false_iff]
    intro hw
    have := List.all_eq_true.mp hw d ((mem_preorderList_defer _).mpr ⟨hd, hk⟩)
    rw [h1] at this
    exact Bool.noConfusion this
  simp [this]

/-- C16, witness: the nil defer statement after line 42 of the test data. -/
theorem C16_nil_call_aborts_run_witness :
    visitDefer nilDefer = none ∧ run (Pass.mk [fileOf [line42, nilDefer]]) = none :=
  C16_nil_call_aborts_run (Pass.mk [fileOf [line42, nilDefer]]) nilDefer
    (List.mem_iff_getElem?.mpr ⟨20, rfl⟩) rfl rfl


/-! ## Visits, regions and order -/

theorem exprReachable_sublist : ∀ n : Node, (exprReachable n).Sublist (nodes n) := by
  intro n
  induction n using Node.induction with
  | step k p c ch ih =>
    have hl : (exprReachableList ch).Sublist (nodesList ch) := by
      induction ch with
      | nil => exact List.Sublist.refl _
      | cons a t iht =>
        rw [exprReachableList, nodesList]
        exact List.Sublist.append (ih a (List.mem_cons_self a t))
          (iht (fun x hx => ih x (List.mem_cons_of_mem a hx)))
    rw [exprReachable, nodes]
    by_cases he : k.isExpr = true
    · rw [if_pos he]
      exact List.Sublist.cons₂ _ hl
    · rw [if_neg he]
      exact List.Sublist.cons₂ _ (List.nil_sublist _)

theorem pkgsPresent_child {n x : Node} (he : n.kind.isExpr = true) (hx : x ∈ n.children)
    (h : pkgsPresent n = true) : pkgsPresent x = true := by
  rw [pkgsPresent, List.all_eq_true] at h ⊢
  intro m hm
  exact h m (exprReachable_of_child he hx hm)

theorem recordVisit_eq (n : Node) (h : n.nilPkg = false) :
    recordVisit n = some ([n], n.kind.isExpr) := by
  simp [recordVisit, checkDeferCall_eq, h]

theorem Inspect_recordVisit : ∀ n : Node, pkgsPresent n = true →
    Inspect recordVisit n = some (exprReachable n) := by
  intro n
  induction n using Node.induction with
  | step k p c ch ih =>
    intro hp
    have hself : (Node.mk k p c ch).nilPkg = false := by
      have := List.all_eq_true.mp hp _ (self_mem_exprReachable (Node.mk k p c ch))
      simpa using this
    rw [Inspect, recordVisit_eq _ hself, exprReachable]
    by_cases he : k.isExpr = true
    · have hl : ∀ l : List Node, (∀ x ∈ l, Inspect recordVisit x = some (exprReachable x)) →
          InspectList recordVisit l = some (exprReachableList l) := by
        intro l
        induction l with
        | nil => intro _; rfl
        | cons a t iht =>
          intro hall
          rw [InspectList, hall a (List.mem_cons_self a t),
            iht (fun x hx => hall x (List.mem_cons_of_mem a hx)), exprReachableList]
      have hch := hl ch (fun x hx => ih x hx (pkgsPresent_child (n := Node.mk k p c ch) he hx hp))
      simp only [Node.kind, he, if_true]
      rw [hch]
      rfl
    · have he2 : k.isExpr = false := by simpa using he
      simp [Node.kind, he2]

theorem wellFormed_of_wellTyped (pass : Pass) (h : pass.wellTyped = true) :
    pass.wellFormed = true := by
  rw [Pass.wellFormed, List.all_eq_true]
  intro d hd
  obtain ⟨hmem, hk⟩ := (mem_preorderList_defer _).mp hd
  have hall := List.all_eq_true.mp h
  have hdd := hall d hmem
  simp only [Bool.and_eq_true, Bool.or_eq_true, bne_iff_ne, ne_eq, hk, not_true_eq_false,
    false_or, Bool.not_eq_true'] at hdd
  obtain ⟨call, hcall⟩ := Option.isSome_iff_exists.mp hdd.2
  simp only [deferOk, hcall]
  rw [pkgsPresent, List.all_eq_true]
  intro m hm
  have hcm : call ∈ d.children := List.mem_of_mem_head? hcall
  have h1 : m ∈ nodes d := mem_nodes_of_child hcm (exprReachable_subset_nodes call hm)
  obtain ⟨x, hx, hdx⟩ := (mem_nodesList pass.Files).mp hmem
  have h2 : m ∈ nodesList pass.Files :=
    (mem_nodesList pass.Files).mpr ⟨x, hx, mem_nodes_trans x hdx h1⟩
  have := hall m h2
  simp only [Bool.and_eq_true, Bool.not_eq_true'] at this
  simp [this.1]

theorem deferOk_call {d : Node} (h : deferOk d = true) :
    ∃ call, d.Call = some call ∧ pkgsPresent call = true := by
  unfold deferOk at h
  rcases hc : d.Call with _ | call
  · simp [hc] at h
  · exact ⟨call, rfl, by simpa [hc] using h⟩

theorem flaggedReached_eq (d : Node) : flaggedReached d = (walked d).filter Node.flagged := by
  unfold flaggedReached walked
  cases d.Call <;> rfl

theorem reportedCalls_eq (pass : Pass) :
    reportedCalls pass = (walkedNodes pass).filter Node.flagged := by
  unfold reportedCalls walkedNodes
  induction preorderList [.DeferStmt] pass.Files with
  | nil => rfl
  | cons a t ih => simp [List.flatMap_cons, ih, flaggedReached_eq]

/-- C12: on a well-formed pass the diagnostics of the run are the
concatenation of one part for each defer statement of the files, the defer
statements taken once each in pre-order at any depth; the part of a defer
statement is what the Detector yields for its call, and two defer
statements with the same call get the same part. -/
theorem C12_concatenation_over_defer_statements (pass : Pass)
    (h : pass.wellFormed = true) :
    (∃ parts : List (List Diagnostic),
      List.Forall₂
        (fun d ds => ∃ call, d.Call = some call ∧ Inspect checkDeferCall call = some ds)
        ((nodesList pass.Files).filter (fun n => decide (n.kind = .DeferStmt))) parts ∧
      reported pass = some parts.flatten) ∧
    ∀ d e : Node, d.Call = e.Call → visitDefer d = visitDefer e := by
  constructor
  · have hfil : (nodesList pass.Files).filter (fun n => decide (n.kind = .DeferStmt))
        = preorderList [.DeferStmt] pass.Files := by
      rw [preorderList_eq_filter]
      apply List.filter_congr
      intro x _
      simp
    rw [hfil]
    refine ⟨(preorderList [.DeferStmt] pass.Files).map
      (fun d => (flaggedReached d).map diagOf), ?_, ?_⟩
    · have hall : (preorderList [.DeferStmt] pass.Files).all deferOk = true := h
      generalize preorderList [.DeferStmt] pass.Files = l at hall
      induction l with
      | nil => exact List.Forall₂.nil
      | cons a t ih =>
        simp only [List.all_cons, Bool.and_eq_true] at hall
        refine List.Forall₂.cons ?_ (ih hall.2)
        obtain ⟨call, hcall, hp⟩ := deferOk_call hall.1
        refine ⟨call, hcall, ?_⟩
        rw [Inspect_of_pkgsPresent call hp]
        simp [flaggedReached, hcall, diagsOf]
    · rw [reported_eq pass h, reportedCalls]
      congr 1
      induction preorderList [.DeferStmt] pass.Files with
      | nil => rfl
      | cons a t ih => simp [List.flatMap_cons, ih]
  · intro d e hde
    simp [visitDefer, hde]

/-- C12, witness: a file with the nested statement
`defer a(func() { defer b(time.Since(x)) }, time.Since(y))`. -/
theorem C12_concatenation_over_defer_statements_witness :
    (Pass.mk [fileOf [crossedDefer]]).wellFormed = true ∧
    ((∃ parts : List (List Diagnostic),
      List.Forall₂
        (fun d ds => ∃ call, d.Call = some call ∧ Inspect checkDeferCall call = some ds)
        ((nodesList (Pass.mk [fileOf [crossedDefer]]).Files).filter
          (fun n => decide (n.kind = .DeferStmt))) parts ∧
      reported (Pass.mk [fileOf [crossedDefer]]) = some parts.flatten) ∧
    ∀ d e : Node, d.Call = e.Call → visitDefer d = visitDefer e) :=
  ⟨by decide, C12_concatenation_over_defer_statements (Pass.mk [fileOf [crossedDefer]])
    (by decide)⟩


theorem subperm_append {a b c d : List Node} (h1 : a.Subperm b) (h2 : c.Subperm d) :
    (a ++ c).Subperm (b ++ d) := by
  obtain ⟨x, hxa, hxb⟩ := h1
  obtain ⟨y, hyc, hyd⟩ := h2
  exact ⟨x ++ y, List.Perm.append hxa hyc, List.Sublist.append hxb hyd⟩

theorem nodup_of_subperm {a b : List Node} (h : a.Subperm b) (hb : b.Nodup) : a.Nodup := by
  obtain ⟨x, hxa, hxb⟩ := h
  exact (List.Perm.nodup_iff hxa).mp (List.Nodup.sublist hxb hb)

theorem walked_mk (k : NodeKind) (p : Pos) (c : Option Object) (a : Node) (t : List Node) :
    walked (.mk k p c (a :: t)) = exprReachable a := rfl

theorem preorder_defer_of_ne (k : NodeKind) (p : Pos) (c : Option Object) (ch : List Node)
    (hk : k ≠ .DeferStmt) :
    preorder [.DeferStmt] (.mk k p c ch) = preorderList [.DeferStmt] ch := by
  rw [preorder]
  simp [hk]

theorem preorder_defer (p : Pos) (c : Option Object) (ch : List Node) :
    preorder [.DeferStmt] (.mk .DeferStmt p c ch)
      = .mk .DeferStmt p c ch :: preorderList [.DeferStmt] ch := by
  rw [preorder]
  simp

theorem regions_subperm : ∀ n : Node,
    (exprReachable n ++ (preorder [.DeferStmt] n).flatMap walked).Subperm (nodes n) := by
  intro n
  induction n using Node.induction with
  | step k p c ch ih =>
    have hl : ∀ l : List Node,
        (∀ x ∈ l, (exprReachable x ++ (preorder [.DeferStmt] x).flatMap walked).Subperm
          (nodes x)) →
        (exprReachableList l ++ (preorderList [.DeferStmt] l).flatMap walked).Subperm
          (nodesList l) := by
      intro l
      induction l with
      | nil => intro _; exact List.Subperm.refl _
      | cons a t iht =>
        intro hall
        rw [exprReachableList, preorderList, nodesList, List.flatMap_append]
        have h1 := hall a (List.mem_cons_self a t)
        have h2 := iht (fun x hx => hall x (List.mem_cons_of_mem a hx))
        refine List.Subperm.trans (List.Perm.subperm ?_) (subperm_append h1 h2)
        rw [List.append_assoc, List.append_assoc]
        exact List.Perm.append_left _ (List.perm_append_comm_assoc _ _ _)
    have hch := hl ch ih
    have hrw : ((preorderList [.DeferStmt] ch).flatMap walked).Subperm (nodesList ch) :=
      List.Subperm.trans (List.Sublist.subperm (List.sublist_append_right _ _)) hch
    rw [nodes]
    by_cases hk : k = .DeferStmt
    · subst hk
      rw [preorder_defer, exprReachable, List.flatMap_cons]
      simp only [NodeKind.isExpr, Bool.false_eq_true, if_false, List.singleton_append]
      refine (List.subperm_cons _).mpr ?_
      rcases ch with _ | ⟨a, t⟩
      · exact List.nil_subperm
      · rw [walked_mk, preorderList, nodesList, List.flatMap_append, ← List.append_assoc]
        have h1 := ih a (List.mem_cons_self a t)
        have h2 : ((preorderList [.DeferStmt] t).flatMap walked).Subperm (nodesList t) :=
          List.Subperm.trans (List.Sublist.subperm (List.sublist_append_right _ _))
            (hl t (fun x hx => ih x (List.mem_cons_of_mem a hx)))
        exact subperm_append h1 h2
    · rw [preorder_defer_of_ne k p c ch hk, exprReachable]
      by_cases he : k.isExpr = true
      · rw [if_pos he, List.cons_append]
        exact (List.subperm_cons _).mpr hch
      · rw [if_neg he, List.singleton_append]
        exact (List.subperm_cons _).mpr hrw

theorem walkedNodes_subperm (pass : Pass) :
    (walkedNodes pass).Subperm (nodesList pass.Files) := by
  unfold walkedNodes
  generalize pass.Files = l
  induction l with
  | nil => exact List.Subperm.refl _
  | cons a t ih =>
    rw [preorderList, nodesList, List.flatMap_append]
    exact subperm_append
      (List.Subperm.trans (List.Sublist.subperm (List.sublist_append_right _ _))
        (regions_subperm a)) ih

theorem regions_sublist : ∀ n : Node,
    (∀ d ∈ nodes n, d.kind = .DeferStmt → preorderList [.DeferStmt] d.children = []) →
    ((preorder [.DeferStmt] n).flatMap walked).Sublist (nodes n) := by
  intro n
  induction n using Node.induction with
  | step k p c ch ih =>
    intro hn
    have hl : ∀ l : List Node,
        (∀ x ∈ l, (∀ d ∈ nodes x, d.kind = .DeferStmt →
            preorderList [.DeferStmt] d.children = []) →
          ((preorder [.DeferStmt] x).flatMap walked).Sublist (nodes x)) →
        (∀ d ∈ nodesList l, d.kind = .DeferStmt →
            preorderList [.DeferStmt] d.children = []) →
        ((preorderList [.DeferStmt] l).flatMap walked).Sublist (nodesList l) := by
      intro l
      induction l with
      | nil => intro _ _; exact List.Sublist.refl _
      | cons a t iht =>
        intro hall hnn
        rw [preorderList, nodesList, List.flatMap_append]
        refine List.Sublist.append ?_ ?_
        · exact hall a (List.mem_cons_self a t) (fun d hd hk =>
            hnn d ((mem_nodesList _).mpr ⟨a, List.mem_cons_self a t, hd⟩) hk)
        · refine iht (fun x hx => hall x (List.mem_cons_of_mem a hx)) (fun d hd hk => ?_)
          obtain ⟨y, hy, hdy⟩ := (mem_nodesList _).mp hd
          exact hnn d ((mem_nodesList _).mpr ⟨y, List.mem_cons_of_mem a hy, hdy⟩) hk
    rw [nodes]
    by_cases hk : k = .DeferStmt
    · subst hk
      have hnone : preorderList [.DeferStmt] ch = [] :=
        hn _ (self_mem_nodes _) rfl
      rw [preorder_defer, hnone, List.flatMap_cons]
      simp only [List.flatMap_nil, List.append_nil]
      refine List.Sublist.cons _ ?_
      rcases ch with _ | ⟨a, t⟩
      · exact List.nil_sublist _
      · rw [walked_mk, nodesList]
        exact List.Sublist.trans (exprReachable_sublist a) (List.sublist_append_left _ _)
    · rw [preorder_defer_of_ne k p c ch hk]
      refine List.Sublist.cons _ (hl ch ih (fun d hd hkd => ?_))
      refine hn d ?_ hkd
      simp only [nodes, List.mem_cons]
      exact Or.inr hd

theorem walkedNodes_sublist (pass : Pass) (h : noDeferInDefer pass.Files = true) :
    (walkedNodes pass).Sublist (nodesList pass.Files) := by
  have hn : ∀ d ∈ nodesList pass.Files, d.kind = .DeferStmt →
      preorderList [.DeferStmt] d.children = [] := by
    intro d hd hk
    have := List.all_eq_true.mp h d hd
    simpa [hk] using this
  unfold walkedNodes
  generalize pass.Files = l at hn
  induction l with
  | nil => exact List.Sublist.refl _
  | cons a t ih =>
    rw [preorderList, nodesList, List.flatMap_append]
    refine List.Sublist.append (regions_sublist a (fun d hd hk => ?_)) (ih (fun d hd hk => ?_))
    · exact hn d ((mem_nodesList _).mpr ⟨a, List.mem_cons_self a t, hd⟩) hk
    · obtain ⟨y, hy, hdy⟩ := (mem_nodesList _).mp hd
      exact hn d ((mem_nodesList _).mpr ⟨y, List.mem_cons_of_mem a hy, hdy⟩) hk


/-- C13 (as stated) fails on
`defer a(func() { defer b(time.Since(x)) }, time.Since(y))`: the calls of
the tree are listed in source order, yet the diagnostic of `time.Since(y)`
(column 45) comes before the one of `time.Since(x)` (column 27), the nested
defer statement being handled after the whole outer call. -/
theorem C13_counterexample_nested_defer_reported_later :
    reported (Pass.mk [fileOf [crossedDefer]])
      = some [⟨45, reportMessage⟩, ⟨27, reportMessage⟩] ∧
    callsOrdered [fileOf [crossedDefer]] = true ∧
    ¬ (([⟨45, reportMessage⟩, ⟨27, reportMessage⟩] : List Diagnostic).map
        Diagnostic.Pos).Pairwise (fun a b => a ≤ b) := by
  decide

/-- C13 (as amended): on a well-formed pass in which no defer statement lies
below another defer statement, and whose call expressions are met in source
order along the pre-order listing of the nodes (as in every parsed file),
the positions of the diagnostics do not decrease along the output. -/
theorem C13_source_order_without_nested_defer (pass : Pass)
    (hwf : pass.wellFormed = true) (hn : noDeferInDefer pass.Files = true)
    (hp : callsOrdered pass.Files = true) :
    ∃ ds, reported pass = some ds ∧
      (ds.map Diagnostic.Pos).Pairwise (fun a b => a ≤ b) := by
  refine ⟨_, reported_eq pass hwf, ?_⟩
  have hsub : (reportedCalls pass).Sublist (nodesList pass.Files) := by
    rw [reportedCalls_eq]
    exact List.Sublist.trans (List.filter_sublist _) (walkedNodes_sublist pass hn)
  have hcalls : (reportedCalls pass).filter (fun n => n.kind == .CallExpr)
      = reportedCalls pass := by
    rw [List.filter_eq_self]
    intro c hc
    rw [reportedCalls_eq] at hc
    have hf := (List.mem_filter.mp hc).2
    simp [((flagged_iff c).mp hf).1]
  have hsub2 : (reportedCalls pass).Sublist
      ((nodesList pass.Files).filter (fun n => n.kind == .CallExpr)) := by
    rw [← hcalls]
    exact List.Sublist.filter _ hsub
  have hmap : ((reportedCalls pass).map diagOf).map Diagnostic.Pos
      = (reportedCalls pass).map Node.pos := by
    rw [List.map_map]
    rfl
  rw [hmap]
  exact List.Pairwise.sublist (List.Sublist.map Node.pos hsub2) (of_decide_eq_true hp)

/-- C13, witness: the file `twoDefersFile`, with the positions of the
parser: the name of the function (44) is listed before its type (39), the
two diagnostics are at 88 and 131. -/
theorem C13_source_order_without_nested_defer_witness :
    (Pass.mk [twoDefersFile]).wellFormed = true ∧
    noDeferInDefer [twoDefersFile] = true ∧
    callsOrdered [twoDefersFile] = true ∧
    reported (Pass.mk [twoDefersFile]) = some [⟨88, reportMessage⟩, ⟨131, reportMessage⟩] ∧
    ∃ ds, reported (Pass.mk [twoDefersFile]) = some ds ∧
      (ds.map Diagnostic.Pos).Pairwise (fun a b => a ≤ b) :=
  ⟨by decide, by decide, by decide, by decide,
    C13_source_order_without_nested_defer (Pass.mk [twoDefersFile])
      (by decide) (by decide) (by decide)⟩

/-- C15: `run` is a total function; on a pass as the parser and the type
checker deliver it, it returns a nil result and a nil error, and the walk of
the call of every defer statement visits the nodes of `exprReachable`, a
sublist of the nodes of that call (each node at most once).  No run returns
an error. -/
theorem C15_run_returns_nil_nil (pass : Pass) (h : pass.wellTyped = true) :
    (∃ ds, run pass = some ⟨ds, none, none⟩) ∧
    (∀ d ∈ nodesList pass.Files, d.kind = .DeferStmt →
      ∃ call, d.Call = some call ∧
        Inspect recordVisit call = some (exprReachable call) ∧
        (exprReachable call).Sublist (nodes call)) ∧
    (∀ (q : Pass) (r : Outcome), run q = some r → r.result = none ∧ r.err = none) := by
  have hwf := wellFormed_of_wellTyped pass h
  refine ⟨⟨_, by rw [run_eq, hwf]; rfl⟩, ?_, ?_⟩
  · intro d hd hk
    have hok := List.all_eq_true.mp hwf d ((mem_preorderList_defer _).mpr ⟨hd, hk⟩)
    obtain ⟨call, hcall, hp⟩ := deferOk_call hok
    exact ⟨call, hcall, Inspect_recordVisit call hp, exprReachable_sublist call⟩
  · intro q r hr
    rw [run_eq] at hr
    by_cases hq : q.wellFormed = true
    · simp only [hq, if_true, Option.some.injEq] at hr
      subst hr
      exact ⟨rfl, rfl⟩
    · simp [hq] at hr

/-- C15, witness: a file with lines 44 and 42 of the test data. -/
theorem C15_run_returns_nil_nil_witness :
    (Pass.mk [fileOf [line44, line42]]).wellTyped = true ∧
    (∃ ds, run (Pass.mk [fileOf [line44, line42]]) = some ⟨ds, none, none⟩) ∧
    (∀ d ∈ nodesList (Pass.mk [fileOf [line44, line42]]).Files, d.kind = .DeferStmt →
      ∃ call, d.Call = some call ∧
        Inspect recordVisit call = some (exprReachable call) ∧
        (exprReachable call).Sublist (nodes call)) ∧
    (∀ (q : Pass) (r : Outcome), run q = some r → r.result = none ∧ r.err = none) :=
  ⟨by decide, C15_run_returns_nil_nil (Pass.mk [fileOf [line44, line42]]) (by decide)⟩

/-- C17: on a well-formed pass the diagnostics are those of the flagged
calls among the walked nodes; the walks of the defer statements visit the
nodes of `walkedNodes`, which taken together are, up to order, a sublist of
the nodes of the files: no node of the tree is walked twice, be it by one
defer statement or by two, nested or not, and so no call is reported twice.
When the nodes of the files are pairwise distinct, so are the reported
calls. -/
theorem C17_no_call_reported_twice (pass : Pass) (h : pass.wellFormed = true) :
    reported pass = some (((walkedNodes pass).filter Node.flagged).map diagOf) ∧
    (∀ d ∈ preorderList [.DeferStmt] pass.Files,
      ∃ call, d.Call = some call ∧ Inspect recordVisit call = some (walked d)) ∧
    (walkedNodes pass).Subperm (nodesList pass.Files) ∧
    ((walkedNodes pass).filter Node.flagged).Subperm (nodesList pass.Files) ∧
    ((nodesList pass.Files).Nodup →
      (walkedNodes pass).Nodup ∧ ((walkedNodes pass).filter Node.flagged).Nodup) := by
  have hsub := walkedNodes_subperm pass
  have hsubf : ((walkedNodes pass).filter Node.flagged).Subperm (nodesList pass.Files) :=
    List.Subperm.trans (List.Sublist.subperm (List.filter_sublist _)) hsub
  refine ⟨by rw [reported_eq pass h, reportedCalls_eq], ?_, hsub, hsubf, ?_⟩
  · intro d hd
    obtain ⟨call, hcall, hp⟩ := deferOk_call (List.all_eq_true.mp h d hd)
    refine ⟨call, hcall, ?_⟩
    rw [Inspect_recordVisit call hp]
    simp [walked, hcall]
  · intro hnd
    exact ⟨nodup_of_subperm hsub hnd, nodup_of_subperm hsubf hnd⟩

/-- C17, witness: a file with the nested statement
`defer a(func() { defer b(time.Since(x)) }, time.Since(y))`. -/
theorem C17_no_call_reported_twice_witness :
    (Pass.mk [fileOf [crossedDefer]]).wellFormed = true ∧
    (walkedNodes (Pass.mk [fileOf [crossedDefer]])).Subperm
      (nodesList (Pass.mk [fileOf [crossedDefer]]).Files) ∧
    reported (Pass.mk [fileOf [crossedDefer]])
      = some (((walkedNodes (Pass.mk [fileOf [crossedDefer]])).filter Node.flagged).map diagOf) :=
  ⟨by decide, (C17_no_call_reported_twice (Pass.mk [fileOf [crossedDefer]]) (by decide)).2.2.1,
    (C17_no_call_reported_twice (Pass.mk [fileOf [crossedDefer]]) (by decide)).1⟩

end defermistake
